import Mathlib

/-!
Verification development for the `revisions` word-level diff tool.

The development shallowly embeds the core of the repository:

  - `diff.py` (`diff_wordsToChars`, the inner `diff_linesToCharsMunge`,
    `diff_wordMode`): the symbol codec and word-diff engine;
  - `edits_html.py` (`EditsHtml.handle_diff` with its inner `deque`,
    and the edit-record construction of `add_unaligned_paragraphs`):
    the edit classifier and offset reconciler;
  - `aligned_text.py` (`AlignedText.get_sentence_offsets`, and the
    file-system effect of `AlignedText.__init__`): the document offset
    mapper;
  - `get_single_output.py` (`create_html_file`): the file-system trace
    of the surrounding tool.

External collaborators are treated as the spec treats them, as black
boxes with a contract: the spaCy tokenizer is an abstract parameter
`Tok`, and the diff-match-patch symbol diff is either an abstract
parameter constrained by its round-trip contract, or the explicit model
`dmpDiffModel` of the documented cases of `diff_main`.  Machine strings
are `String` (lists of characters, as Python strings are sequences of
code points) and Python ints are `Int`.
-/

namespace Revisions

/-! ## Python string primitives -/

/-- Models Python `str.strip()`: remove leading and trailing whitespace. -/
def pyStrip (s : String) : String :=
  String.mk (((s.data.dropWhile Char.isWhitespace).reverse.dropWhile Char.isWhitespace).reverse)

/-- Models Python `str.endswith(suf)`. -/
def pyEndsWith (s suf : String) : Bool :=
  suf.data.isSuffixOf s.data

/-- Models Python `text.split(sep)` for a one-character separator, on char
    lists.  The result is never empty: splitting the empty string gives one
    empty piece, exactly as in Python. -/
def splitOnChar (sep : Char) : List Char → List (List Char)
  | [] => [[]]
  | c :: rest =>
    match splitOnChar sep rest with
    | [] => [[]]
    | l :: ls => if c = sep then [] :: l :: ls else (c :: l) :: ls

/-- Models Python `text.split` on the newline character, as strings. -/
def pyLines (s : String) : List String :=
  (splitOnChar (Char.ofNat 10) s.data).map String.mk

/-- Models Python `s[a:b]` slicing with int indices (step 1). -/
def pySlice (s : String) (a b : Int) : String :=
  let n : Int := (s.data.length : Int)
  let lo := if a < 0 then max 0 (n + a) else min a n
  let hi := if b < 0 then max 0 (n + b) else min b n
  String.mk ((s.data.take hi.toNat).drop lo.toNat)

/-- Scanner for `countOccs`: `skip` counts characters still to pass over
    from the match in progress, so a found occurrence is not re-matched
    inside itself (Python counts non-overlapping occurrences). -/
def countOccsAux (pat : List Char) : Nat → List Char → Nat
  | _, [] => 0
  | Nat.succ k, _ :: rest => countOccsAux pat k rest
  | 0, c :: rest =>
    if pat.isPrefixOf (c :: rest) then countOccsAux pat (pat.length - 1) rest + 1
    else countOccsAux pat 0 rest

/-- Models Python `str.count(pat)` for a non-empty pattern: non-overlapping
    occurrences, scanning left to right. -/
def countOccs (pat : List Char) (l : List Char) : Nat := countOccsAux pat 0 l

/-- The ASCII apostrophe character (code 39). -/
def singleQuote : Char := Char.ofNat 39

/-- The ASCII backquote character (code 96). -/
def backquote : Char := Char.ofNat 96

/-- The double-quote normalization marker count of `edits_html.py` lines
    93 to 94: `diff_string.count` of two apostrophes plus
    `diff_string.count` of two backquotes (the ASCII forms that
    `unicode_normalize` uses for left and right double quotation marks). -/
def quoteMarkers (s : String) : Nat :=
  countOccs [singleQuote, singleQuote] s.data + countOccs [backquote, backquote] s.data

/-! ## Symbol codec (`diff.py`) -/

/-- The shared symbol table of `diff_wordsToChars` (`diff.py` lines 36 to 41):
    `lineArray` maps symbol values to chunk text and `lineHash` is the reverse
    map.  The Python dict is modelled as an association list where assignment
    conses in front (so lookup finds the most recent binding, as a dict
    overwrite does). -/
structure Table where
  lineArray : List String
  lineHash : List (String × Nat)

/-- Dict lookup: `lineHash[line]` when `line in lineHash`. -/
def hashFind (h : List (String × Nat)) (s : String) : Option Nat :=
  (h.find? (fun e => e.1 == s)).map (fun e => e.2)

/-- `lineArray.append(line); lineHash[line] = len(lineArray) - 1`
    (`diff.py` lines 97 to 98). -/
def pushLine (tb : Table) (line : String) : Table :=
  ⟨tb.lineArray ++ [line], (line, tb.lineArray.length) :: tb.lineHash⟩

/-- Splits the munged text into chunks, each a maximal piece ending at a space
    (the boundary marker), with a trailing space-less chunk kept whole; models
    the `lineStart`/`lineEnd` walk with `text.find(" ", lineStart)` of
    `diff_linesToCharsMunge` (`diff.py` lines 82 to 101).  `cur` accumulates
    the current chunk in reverse. -/
def chunksOfAux : List Char → List Char → List (List Char)
  | cur, [] => if cur = [] then [] else [cur.reverse]
  | cur, c :: rest =>
    if c = ' ' then (cur.reverse ++ [' ']) :: chunksOfAux [] rest
    else chunksOfAux (c :: cur) rest

def chunksOf (cs : List Char) : List (List Char) := chunksOfAux [] cs

/-- Encodes the chunk sequence into symbols through the shared table; models
    the body of the while loop of `diff_linesToCharsMunge` including the
    `maxLines` bail-out, which swallows the whole remaining text as one final
    chunk (`diff.py` lines 89 to 100).  Symbols are modelled as `Nat` values;
    the source stores the same values as characters via `chr`/`ord`. -/
def encodeChunks (maxLines : Nat) : List (List Char) → Table → List Nat × Table
  | [], tb => ([], tb)
  | ch :: rest, tb =>
    match hashFind tb.lineHash (String.mk ch) with
    | some j =>
      let r := encodeChunks maxLines rest tb
      (j :: r.1, r.2)
    | none =>
      if tb.lineArray.length = maxLines then
        let line := String.mk (ch ++ rest.flatten)
        ([tb.lineArray.length], pushLine tb line)
      else
        let tb1 := pushLine tb (String.mk ch)
        let r := encodeChunks maxLines rest tb1
        (tb.lineArray.length :: r.1, r.2)

/-- The external spaCy tokenizer, modelled abstractly: for a line it yields
    the token texts with their character index in the line (`w.text` and
    `w.idx` of `diff.py` line 65). -/
def Tok := String → List (String × Nat)

/-- `word_tuples` of `diff.py` lines 64 to 66:
    `(w.text, (w.idx, w.idx + len(w.text)))`. -/
def wordTuples (tok : Tok) (line : String) : List (String × (Int × Int)) :=
  (tok line).map (fun w => (w.1, ((w.2 : Int), (w.2 : Int) + (w.1.length : Int))))

/-- One step of the line loop of `diff_linesToCharsMunge` (`diff.py` lines 62
    to 70): a line that is non-blank and has a non-empty token list extends
    `words` and REASSIGNS `offset_list`; every other line leaves both
    unchanged. -/
def mungeWordsStep (tok : Tok) (acc : List String × List (Int × Int)) (line : String) :
    List String × List (Int × Int) :=
  if pyStrip line ≠ "" then
    let wts := wordTuples tok line
    if wts ≠ [] then (acc.1 ++ wts.map (fun w => w.1), wts.map (fun w => w.2))
    else acc
  else acc

/-- `words` and `offset_list` after the line loop, plus the trailing-newline
    word (`diff.py` lines 60 to 74). -/
def mungeWords (tok : Tok) (text : String) : List String × List (Int × Int) :=
  let acc := (pyLines text).foldl (mungeWordsStep tok) ([], [])
  (if pyEndsWith text "\n" then acc.1 ++ ["\n"] else acc.1, acc.2)

/-- The munged text `" ".join(words) + " "` of `diff.py` line 80, as char
    data; this is the boundary-marker (space) normalization of the input
    text. -/
def mungedData (tok : Tok) (text : String) : List Char :=
  List.intercalate [' '] (((mungeWords tok text).1).map String.data) ++ [' ']

/-- The boundary-marker normalization of a text: its words joined on single
    spaces with one trailing space. -/
def normalizedText (tok : Tok) (text : String) : String := String.mk (mungedData tok text)

/-- `diff_linesToCharsMunge`: the encoded symbol string and the offset list
    for one text, threading the shared table. -/
def diff_linesToCharsMunge (tok : Tok) (maxLines : Nat) (text : String) (tb : Table) :
    (List Nat × List (Int × Int)) × Table :=
  let r := encodeChunks maxLines (chunksOf (mungedData tok text)) tb
  ((r.1, (mungeWords tok text).2), r.2)

/-- `diff_wordsToChars` (`diff.py` lines 20 to 109): encode both texts
    through one shared table, with `maxLines` 666666 for text1 and 1114111
    for text2; returns
    `(chars1, chars2, lineArray, (offsets1, offsets2))`. -/
def diff_wordsToChars (tok : Tok) (text1 text2 : String) :
    List Nat × List Nat × List String × (List (Int × Int) × List (Int × Int)) :=
  let r1 := diff_linesToCharsMunge tok 666666 text1 ⟨[""], []⟩
  let r2 := diff_linesToCharsMunge tok 1114111 text2 r1.2
  (r1.1.1, r2.1.1, r2.2.lineArray, (r1.1.2, r2.1.2))

/-- `dmp.diff_charsToLines`: replace each symbol of a run by its table
    entry and join. -/
def charsToLines (lineArray : List String) (syms : List Nat) : String :=
  String.mk ((syms.map (fun j => (lineArray.getD j "").data)).flatten)

/-- `diff_wordMode` (`diff.py` lines 112 to 122) over an abstract
    symbol-level diff function `d` standing for the external
    `dmp.diff_main`: returns the decoded diff, the symbol-level `char_diff`,
    and the pair of offset lists. -/
def diff_wordMode (d : List Nat → List Nat → List (Int × List Nat)) (tok : Tok)
    (text1 text2 : String) :
    List (Int × String) × List (Int × List Nat) × (List (Int × Int) × List (Int × Int)) :=
  let a := diff_wordsToChars tok text1 text2
  let char_diff := d a.1 a.2.1
  let diff := char_diff.map (fun r => (r.1, charsToLines a.2.2.1 r.2))
  (diff, char_diff, a.2.2.2)

/-! ## Model of the external diff-match-patch symbol diff -/

/-- Length of the longest common prefix of two symbol strings
    (`dmp.diff_commonPrefix`). -/
def commonPrefixLen : List Nat → List Nat → Nat
  | a :: as, b :: bs => if a = b then commonPrefixLen as bs + 1 else 0
  | _, _ => 0

/-- Length of the longest common suffix (`dmp.diff_commonSuffix`). -/
def commonSuffixLen (a b : List Nat) : Nat := commonPrefixLen a.reverse b.reverse

/-- First index at which `pat` occurs as a contiguous sublist, if any
    (Python `str.find` on symbol strings). -/
def subIndex (pat : List Nat) : List Nat → Option Nat
  | [] => if pat = [] then some 0 else none
  | c :: rest =>
    if pat.isPrefixOf (c :: rest) then some 0
    else (subIndex pat rest).map (fun i => i + 1)

/-- Modelled from the spec: the external diff-match-patch library, whose
    source is not part of this repository, supplies the symbol-level edit
    script (`dmp.diff_main`).  `dmpDiffCompute` follows the documented
    `diff_compute` cases: empty side, shorter text contained in the longer,
    and single-character shorttext; the remaining general (bisect) case is
    conservatively modelled as delete-all/insert-all, which is a valid edit
    script. -/
def dmpDiffCompute (a b : List Nat) : List (Int × List Nat) :=
  if a = [] then [(1, b)]
  else if b = [] then [(-1, a)]
  else
    let longtext := if a.length > b.length then a else b
    let shorttext := if a.length > b.length then b else a
    match subIndex shorttext longtext with
    | some i =>
      let op : Int := if a.length > b.length then -1 else 1
      ([(op, longtext.take i), ((0 : Int), shorttext),
        (op, longtext.drop (i + shorttext.length))]).filter (fun r => !r.2.isEmpty)
    | none => [(-1, a), (1, b)]

/-- Modelled from the spec: top level of the external `dmp.diff_main` on
    symbol strings.  Equality short-circuit, common prefix and suffix
    stripped and re-attached as equal runs, middle handled by
    `dmpDiffCompute`; the final merge pass is modelled by the empty-run
    filtering in `dmpDiffCompute`. -/
def dmpDiffModel (a b : List Nat) : List (Int × List Nat) :=
  if a = b then (if a = [] then [] else [((0 : Int), a)])
  else
    let n := commonPrefixLen a b
    let a1 := a.drop n
    let b1 := b.drop n
    let m := commonSuffixLen a1 b1
    let mid := dmpDiffCompute (a1.take (a1.length - m)) (b1.take (b1.length - m))
    (if n ≠ 0 then [((0 : Int), a.take n)] else []) ++ mid ++
      (if m ≠ 0 then [((0 : Int), a1.drop (a1.length - m))] else [])

/-! ## Edit classifier and offset reconciler (`edits_html.py`) -/

/-- One entry of the `edit_dicts` output of `EditsHtml.handle_diff`
    (`edits_html.py` lines 154 to 162). -/
structure EditRecord where
  edit_type : String
  offset1 : Int × Int
  offset2 : Int × Int
  text1 : String
  text2 : String
deriving DecidableEq

/-- The inner `deque` of `handle_diff` (`edits_html.py` lines 83 to 99):
    consume `num_tokens` offsets from the front of the list; when none are
    available the sentinel `(-1, -1)` is produced, otherwise the span runs
    from the first consumed begin to the last consumed end minus the
    quote-marker count of `diff_string`.  Python list slicing never raises,
    so the function is total. -/
def deque (offset_list : List (Int × Int)) (diff_string : String) (num_tokens : Nat) :
    (Int × Int) × List (Int × Int) :=
  match offset_list.take num_tokens with
  | [] => ((-1, -1), offset_list.drop num_tokens)
  | d :: ds =>
    ((d.1, ((d :: ds).getLastD (0, 0)).2 - (quoteMarkers diff_string : Int)),
     offset_list.drop num_tokens)

/-- One appended record of `handle_diff` (`edits_html.py` lines 149 to 162):
    texts are recovered by slicing the full document contents, with the empty
    string whenever the begin is negative. -/
def mkRecord (content1 content2 : String) (et : String) (eo1 eo2 : Int × Int) : EditRecord :=
  { edit_type := et, offset1 := eo1, offset2 := eo2,
    text1 := if 0 ≤ eo1.1 then pySlice content1 eo1.1 eo1.2 else "",
    text2 := if 0 ≤ eo2.1 then pySlice content2 eo2.1 eo2.2 else "" }

/-- The run loop of `EditsHtml.handle_diff` (`edits_html.py` lines 101 to
    167).  Each run is zipped with its token count `num_tokens_list[i]` (the
    Python loop walks the two parallel lists by index).  A deleteFromText1
    run (`-1`) whose immediate successor is insertFromText2 (`1`) is merged
    into one substitution that consumes both runs and both token counts;
    note that BOTH `deque` calls of that case receive `diff_string`, the
    stripped text of the DELETED run (`edits_html.py` lines 118 to 121).
    The HTML strings, rendered from external Jinja templates, are omitted;
    the `edit_dicts` output is modelled.  Ops outside `{-1, 0, 1}` never
    occur in diff-match-patch output and are skipped here. -/
def handleDiffLoop (content1 content2 : String) :
    List ((Int × String) × Nat) → List (Int × Int) → List (Int × Int) → List EditRecord
  | [], _, _ => []
  | ((dt, ds), n) :: [], o1, o2 =>
    -- last run: `i == last_index`, so no substitution lookahead is possible
    let s := pyStrip ds
    if dt = -1 then
      let r1 := deque o1 s n
      [mkRecord content1 content2 "deletion" r1.1 (-1, -1)]
    else if dt = 1 then
      let r2 := deque o2 s n
      [mkRecord content1 content2 "insertion" (-1, -1) r2.1]
    else if dt = 0 then
      let r1 := deque o1 s n
      let r2 := deque o2 s n
      [mkRecord content1 content2 "same" r1.1 r2.1]
    else []
  | ((dt, ds), n) :: ((dt2, ds2), n2) :: rest2, o1, o2 =>
    let s := pyStrip ds
    if dt = -1 then
      if dt2 = 1 then
        let r1 := deque o1 s n
        let r2 := deque o2 s n2
        mkRecord content1 content2 "substitution" r1.1 r2.1 ::
          handleDiffLoop content1 content2 rest2 r1.2 r2.2
      else
        let r1 := deque o1 s n
        mkRecord content1 content2 "deletion" r1.1 (-1, -1) ::
          handleDiffLoop content1 content2 (((dt2, ds2), n2) :: rest2) r1.2 o2
    else if dt = 1 then
      let r2 := deque o2 s n
      mkRecord content1 content2 "insertion" (-1, -1) r2.1 ::
        handleDiffLoop content1 content2 (((dt2, ds2), n2) :: rest2) o1 r2.2
    else if dt = 0 then
      let r1 := deque o1 s n
      let r2 := deque o2 s n
      mkRecord content1 content2 "same" r1.1 r2.1 ::
        handleDiffLoop content1 content2 (((dt2, ds2), n2) :: rest2) r1.2 r2.2
    else
      handleDiffLoop content1 content2 (((dt2, ds2), n2) :: rest2) o1 o2

/-- `EditsHtml.handle_diff`: the token counts are the symbol-run lengths of
    `char_diff` (`edits_html.py` line 79). -/
def handle_diff (content1 content2 : String) (diff : List (Int × String))
    (char_diff : List (Int × List Nat)) (offsets1 offsets2 : List (Int × Int)) :
    List EditRecord :=
  handleDiffLoop content1 content2 (diff.zip (char_diff.map (fun r => r.2.length)))
    offsets1 offsets2

/-- The edit record built for each sentence of an unaligned paragraph
    (`edits_html.py` lines 351 to 374); the Python `[-1, -1]` list sentinel
    is modelled as the pair `(-1, -1)`. -/
def unalignedParagraphEdit (edit_type : String) (offset : Int × Int)
    (sentence_text : String) : EditRecord :=
  { edit_type := edit_type,
    offset1 := if edit_type = "insertion" then (-1, -1) else offset,
    offset2 := if edit_type = "deletion" then (-1, -1) else offset,
    text1 := if edit_type = "insertion" then "" else sentence_text,
    text2 := if edit_type = "deletion" then "" else sentence_text }

/-! ## Counting helpers for the classifier theorems -/

/-- Number of runs tagged `op`. -/
def countOp (op : Int) (runs : List ((Int × String) × Nat)) : Nat :=
  runs.countP (fun r => r.1.1 == op)

/-- Number of deleteFromText1 runs whose immediate successor is an
    insertFromText2 run. -/
def countDelIns : List ((Int × String) × Nat) → Nat
  | ((a, _), _) :: ((b, s2), n2) :: rest =>
    (if a = -1 ∧ b = 1 then 1 else 0) + countDelIns (((b, s2), n2) :: rest)
  | _ => 0

/-- Number of emitted records with the given edit type. -/
def countType (t : String) (recs : List EditRecord) : Nat :=
  recs.countP (fun r => r.edit_type == t)

/-! ## Document offset mapper (`aligned_text.py`) -/

/-- Cursor advance for a paragraph with sentences (`aligned_text.py` lines
    110 to 115): past the last sentence end, the separating newline, and the
    surrounding-whitespace length of a space-terminated non-empty
    paragraph (`len(p) - len(p.strip())`, a Nat difference). -/
def nextCursor (p : String) (curr : Int) (offset_list : List (Int × Int)) : Int :=
  let c1 := curr + (offset_list.getLastD (0, 0)).2 + 1
  if p ≠ "" ∧ pyEndsWith p " " then
    c1 + ((p.length - (pyStrip p).length : Nat) : Int)
  else c1

/-- The loop of `AlignedText.get_sentence_offsets` (`aligned_text.py` lines
    101 to 119).  `so i` is `sentence_offsets[i]` when `i in
    sentence_offsets` (the paragraph has sentences) and `none` otherwise (the
    paragraph is blank); `curr` is the running character cursor.  A paragraph
    with sentences appends its spans shifted by the cursor and advances the
    cursor via `nextCursor`; a blank paragraph appends the sentinel and
    advances by one. -/
def getSentenceOffsetsAux (so : Nat → Option (List (Int × Int))) :
    List String → Nat → Int → List (Int × Int)
  | [], _, _ => []
  | p :: rest, i, curr =>
    match so i with
    | some offset_list =>
      let shifted := offset_list.map (fun be => (be.1 + curr, be.2 + curr))
      shifted ++ getSentenceOffsetsAux so rest (i + 1) (nextCursor p curr offset_list)
    | none => (-1, -1) :: getSentenceOffsetsAux so rest (i + 1) (curr + 1)

/-- `AlignedText.get_sentence_offsets`. -/
def get_sentence_offsets (paragraphs : List String)
    (so : Nat → Option (List (Int × Int))) : List (Int × Int) :=
  getSentenceOffsetsAux so paragraphs 0 0

/-- Expected number of table slots: one per sentence of a non-blank
    paragraph, one sentinel slot per blank paragraph. -/
def slotCount (so : Nat → Option (List (Int × Int))) : List String → Nat → Nat
  | [], _ => 0
  | _ :: rest, i =>
    (match so i with | some l => l.length | none => 1) + slotCount so rest (i + 1)

/-- Number of blank-paragraph slots. -/
def blankSlotCount (so : Nat → Option (List (Int × Int))) : List String → Nat → Nat
  | [], _ => 0
  | _ :: rest, i =>
    (match so i with | some _ => 0 | none => 1) + blankSlotCount so rest (i + 1)

/-- Well-formedness of the tokenizer-supplied local sentence spans of one
    document: each non-blank paragraph has a non-empty span list whose spans
    have `0 ≤ begin < end` and are sorted by begin. -/
def SpansWF (so : Nat → Option (List (Int × Int))) (paragraphs : List String) : Prop :=
  ∀ i, i < paragraphs.length → ∀ l, so i = some l →
    l ≠ [] ∧ (∀ be ∈ l, 0 ≤ be.1 ∧ be.1 < be.2) ∧
      l.Pairwise (fun x y => x.1 ≤ y.1)

/-! ## File-system trace (`aligned_text.py` / `get_single_output.py`) -/

/-- The file system as explicit state: path to contents, `none` when the
    file does not exist. -/
def FileSystem := String → Option String

/-- Models `open(path, "a")` followed by writing `text`: append to the
    existing contents, creating the file when missing. -/
def appendToFile (fs : FileSystem) (path text : String) : FileSystem :=
  fun q => if q = path then some (((fs path).getD "") ++ text) else fs q

/-- Models `open(path, "w")` followed by writing `text`. -/
def writeToFile (fs : FileSystem) (path text : String) : FileSystem :=
  fun q => if q = path then some text else fs q

/-- The file-system effect of `AlignedText.__init__` (`aligned_text.py`
    lines 59 to 66): the constructor unconditionally appends a newline to
    `file1` before anything else; every other constructor step (reading
    both files, the TF-IDF model over both files and the stop-word file,
    alignment) only reads. -/
def alignedTextInitFS (fs : FileSystem) (file1 : String) : FileSystem :=
  appendToFile fs file1 "\n"

/-- The file-system trace of `create_html_file` (`get_single_output.py`
    lines 14 to 82): return unchanged when an input file is missing;
    otherwise construct `AlignedText` (the newline append), and if the edit
    count is zero stop without writing; otherwise write the HTML file and,
    unless running in the web app, the JSON file.  The edit computation and
    the rendered output texts are abstract parameters applied to the
    post-append state; output-directory creation is not modelled. -/
def createHtmlFileFS (numEdits : FileSystem → Nat) (htmlText jsonText : FileSystem → String)
    (in_app : Bool) (fs : FileSystem) (file1 file2 htmlOut jsonOut : String) : FileSystem :=
  if (fs file1).isSome && (fs file2).isSome then
    let fs1 := alignedTextInitFS fs file1
    if numEdits fs1 = 0 then fs1
    else
      let fs2 := writeToFile fs1 htmlOut (htmlText fs1)
      if in_app then fs2 else writeToFile fs2 jsonOut (jsonText fs1)
  else fs

/-! ## Round-trip vocabulary -/

/-- Concatenation of the symbol runs tagged equal (`0`) or `keepOp`. -/
def symSide (keepOp : Int) (cd : List (Int × List Nat)) : List Nat :=
  ((cd.filter (fun r => r.1 == 0 || r.1 == keepOp)).map (fun r => r.2)).flatten

/-- Concatenation of the decoded texts of the runs tagged equal (`0`) or
    `keepOp`. -/
def textSide (keepOp : Int) (diff : List (Int × String)) : String :=
  String.mk (((diff.filter (fun r => r.1 == 0 || r.1 == keepOp)).map
    (fun r => r.2.data)).flatten)

/-- The round-trip contract of the external symbol diff: concatenating the
    equal and delete runs restores the first input, concatenating the equal
    and insert runs restores the second. -/
def DiffRoundTrip (d : List Nat → List Nat → List (Int × List Nat)) : Prop :=
  ∀ a b : List Nat, symSide (-1) (d a b) = a ∧ symSide 1 (d a b) = b

/-- Soundness invariant of the shared symbol table: every binding reachable
    through the hash resolves, in the array, to the bound chunk. -/
def TableOk (tb : Table) : Prop :=
  ∀ s j, hashFind tb.lineHash s = some j →
    j < tb.lineArray.length ∧ tb.lineArray.getD j "" = s

/-! ## Concrete instances used by witnesses and counterexamples -/

/-- A concrete tokenizer instance: fixed token lists for the two-word test
    lines, empty elsewhere. -/
def tok0 : Tok := fun s =>
  if s = "hi" then [("hi", 0)]
  else if s = "yo" then [("yo", 0)]
  else []

/-- The trivial symbol diff: delete all of the first input, insert all of
    the second; it satisfies the round-trip contract. -/
def d0 : List Nat → List Nat → List (Int × List Nat) :=
  fun a b => [((-1 : Int), a), ((1 : Int), b)]

/-- A line contributes words and offsets in the line loop exactly when it is
    non-blank and its token list is non-empty (`diff.py` lines 63 and 68). -/
def goodLine (tok : Tok) (line : String) : Bool :=
  (pyStrip line != "") && !(wordTuples tok line).isEmpty

/-- Concrete paragraph list for the document offset mapper instances. -/
def ps0 : List String := ["ab. cd.", "", "ef."]

/-- Concrete local sentence spans for `ps0`: two sentences in the first
    paragraph, a blank second paragraph, one sentence in the third. -/
def so0 : Nat → Option (List (Int × Int)) := fun i =>
  if i = 0 then some [((0 : Int), (3 : Int)), (4, 7)]
  else if i = 2 then some [((0 : Int), (3 : Int))]
  else none

/-! ## List helper lemmas -/

theorem getLastD_mem {α : Type} (l : List α) (d : α) (h : l ≠ []) : l.getLastD d ∈ l := by
  induction l generalizing d with
  | nil => exact absurd rfl h
  | cons a t ih =>
    cases t with
    | nil => simp [List.getLastD]
    | cons b t2 =>
      rw [List.getLastD_cons]
      exact List.mem_cons_of_mem _ (ih _ (by simp))

theorem pairwise_fst_le_getLastD (l : List (Int × Int)) (d : Int × Int)
    (h : l.Pairwise (fun x y => x.1 ≤ y.1)) : ∀ x ∈ l, x.1 ≤ (l.getLastD d).1 := by
  induction l generalizing d with
  | nil => intro x hx; simp at hx
  | cons a t ih =>
    intro x hx
    rw [List.pairwise_cons] at h
    cases t with
    | nil =>
      simp only [List.mem_singleton] at hx
      subst hx
      simp [List.getLastD]
    | cons b t2 =>
      rw [List.getLastD_cons]
      rcases List.mem_cons.mp hx with hxa | hx2
      · subst hxa
        exact h.1 _ (getLastD_mem _ _ (by simp))
      · exact ih _ h.2 x hx2

theorem getD_prefix_stable {α : Type} {l1 l2 : List α} (h : l1 <+: l2) (j : Nat) (d : α)
    (hj : j < l1.length) : l2.getD j d = l1.getD j d := by
  obtain ⟨t, rfl⟩ := h
  exact List.getD_append l1 t d j hj

theorem getD_snoc_self {α : Type} (l : List α) (x : α) (d : α) :
    (l ++ [x]).getD l.length d = x := by
  rw [List.getD_append_right l [x] d l.length (le_refl _)]
  simp [List.getD]

/-! ## Classifier equation lemmas -/

theorem mkRecord_edit_type (c1 c2 et : String) (a b : Int × Int) :
    (mkRecord c1 c2 et a b).edit_type = et := rfl

theorem handleDiffLoop_nil (c1 c2 : String) (o1 o2 : List (Int × Int)) :
    handleDiffLoop c1 c2 [] o1 o2 = [] := rfl

theorem handleDiffLoop_sub (c1 c2 ds ds2 : String) (n n2 : Nat)
    (rest2 : List ((Int × String) × Nat)) (o1 o2 : List (Int × Int)) :
    handleDiffLoop c1 c2 (((-1, ds), n) :: ((1, ds2), n2) :: rest2) o1 o2 =
      mkRecord c1 c2 "substitution" (deque o1 (pyStrip ds) n).1
          (deque o2 (pyStrip ds) n2).1 ::
        handleDiffLoop c1 c2 rest2 (deque o1 (pyStrip ds) n).2
          (deque o2 (pyStrip ds) n2).2 := by
  simp [handleDiffLoop]

theorem handleDiffLoop_del (c1 c2 ds ds2 : String) (dt2 : Int) (n n2 : Nat)
    (rest2 : List ((Int × String) × Nat)) (o1 o2 : List (Int × Int)) (h : dt2 ≠ 1) :
    handleDiffLoop c1 c2 (((-1, ds), n) :: ((dt2, ds2), n2) :: rest2) o1 o2 =
      mkRecord c1 c2 "deletion" (deque o1 (pyStrip ds) n).1 (-1, -1) ::
        handleDiffLoop c1 c2 (((dt2, ds2), n2) :: rest2) (deque o1 (pyStrip ds) n).2 o2 := by
  simp [handleDiffLoop, h]

theorem handleDiffLoop_del_single (c1 c2 ds : String) (n : Nat) (o1 o2 : List (Int × Int)) :
    handleDiffLoop c1 c2 [((-1, ds), n)] o1 o2 =
      [mkRecord c1 c2 "deletion" (deque o1 (pyStrip ds) n).1 (-1, -1)] := by
  simp [handleDiffLoop]

theorem handleDiffLoop_ins (c1 c2 ds : String) (n : Nat)
    (rest : List ((Int × String) × Nat)) (o1 o2 : List (Int × Int)) :
    handleDiffLoop c1 c2 (((1, ds), n) :: rest) o1 o2 =
      mkRecord c1 c2 "insertion" (-1, -1) (deque o2 (pyStrip ds) n).1 ::
        handleDiffLoop c1 c2 rest o1 (deque o2 (pyStrip ds) n).2 := by
  cases rest with
  | nil => norm_num [handleDiffLoop]
  | cons y r2 =>
    obtain ⟨⟨dt2, ds2⟩, n2⟩ := y
    norm_num [handleDiffLoop]

theorem handleDiffLoop_same (c1 c2 ds : String) (n : Nat)
    (rest : List ((Int × String) × Nat)) (o1 o2 : List (Int × Int)) :
    handleDiffLoop c1 c2 (((0, ds), n) :: rest) o1 o2 =
      mkRecord c1 c2 "same" (deque o1 (pyStrip ds) n).1 (deque o2 (pyStrip ds) n).1 ::
        handleDiffLoop c1 c2 rest (deque o1 (pyStrip ds) n).2 (deque o2 (pyStrip ds) n).2 := by
  cases rest with
  | nil => norm_num [handleDiffLoop]
  | cons y r2 =>
    obtain ⟨⟨dt2, ds2⟩, n2⟩ := y
    norm_num [handleDiffLoop]

/-! ## Counting lemmas for the classifier -/

theorem countType_cons (t : String) (r : EditRecord) (l : List EditRecord) :
    countType t (r :: l) = countType t l + (if r.edit_type = t then 1 else 0) := by
  simp [countType, List.countP_cons]

theorem countOp_cons (op : Int) (x : (Int × String) × Nat) (l : List ((Int × String) × Nat)) :
    countOp op (x :: l) = countOp op l + (if x.1.1 = op then 1 else 0) := by
  simp [countOp, List.countP_cons]

theorem countDelIns_cons_ne (x : (Int × String) × Nat) (rest : List ((Int × String) × Nat))
    (h : x.1.1 ≠ -1) : countDelIns (x :: rest) = countDelIns rest := by
  obtain ⟨⟨a, s⟩, m⟩ := x
  cases rest with
  | nil => simp [countDelIns]
  | cons y r2 =>
    obtain ⟨⟨b, s2⟩, m2⟩ := y
    simp only [countDelIns]
    simp at h
    simp [h]

theorem countDelIns_sub (ds ds2 : String) (n n2 : Nat)
    (rest2 : List ((Int × String) × Nat)) :
    countDelIns (((-1, ds), n) :: ((1, ds2), n2) :: rest2) = countDelIns rest2 + 1 := by
  simp only [countDelIns]
  rw [countDelIns_cons_ne _ _ (by norm_num)]
  simp [Nat.add_comm]

theorem countDelIns_del (ds ds2 : String) (dt2 : Int) (n n2 : Nat)
    (rest2 : List ((Int × String) × Nat)) (h : dt2 ≠ 1) :
    countDelIns (((-1, ds), n) :: ((dt2, ds2), n2) :: rest2) =
      countDelIns (((dt2, ds2), n2) :: rest2) := by
  simp only [countDelIns]
  simp [h]

theorem countDelIns_le_length : ∀ (runs : List ((Int × String) × Nat)),
    countDelIns runs ≤ runs.length := by
  intro runs
  induction runs with
  | nil => simp [countDelIns]
  | cons a rest ih =>
    cases rest with
    | nil => simp [countDelIns]
    | cons b rest2 =>
      obtain ⟨⟨da, sa⟩, na⟩ := a
      obtain ⟨⟨db, sb⟩, nb⟩ := b
      simp only [countDelIns, List.length_cons]
      simp only [List.length_cons] at ih
      split <;> omega

theorem countDelIns_le_countOps :
    ∀ (N : Nat) (l : List ((Int × String) × Nat)), l.length ≤ N →
      countDelIns l ≤ countOp (-1) l ∧ countDelIns l ≤ countOp 1 l := by
  intro N
  induction N with
  | zero =>
    intro l hl
    have : l = [] := List.length_eq_zero.mp (Nat.le_zero.mp hl)
    subst this
    simp [countDelIns, countOp]
  | succ N ih =>
    intro l hl
    match l with
    | [] => simp [countDelIns, countOp]
    | [x] =>
      obtain ⟨⟨a, s⟩, m⟩ := x
      simp [countDelIns, countOp_cons, countOp]
    | ((da, s1), m1) :: ((db, s2), m2) :: rest =>
      simp only [List.length_cons] at hl
      have ih1 := ih (((db, s2), m2) :: rest) (by simp only [List.length_cons]; omega)
      have ih2 := ih rest (by omega)
      have hA : countDelIns (((da, s1), m1) :: ((db, s2), m2) :: rest) =
          (if da = -1 ∧ db = 1 then 1 else 0) + countDelIns (((db, s2), m2) :: rest) := by
        simp only [countDelIns]
      have hB : countOp (-1) (((da, s1), m1) :: ((db, s2), m2) :: rest) =
          countOp (-1) (((db, s2), m2) :: rest) + (if da = -1 then 1 else 0) :=
        countOp_cons _ _ _
      have hC : countOp 1 (((da, s1), m1) :: ((db, s2), m2) :: rest) =
          countOp 1 (((db, s2), m2) :: rest) + (if da = 1 then 1 else 0) :=
        countOp_cons _ _ _
      constructor
      · rw [hA, hB]
        by_cases hp : da = -1 ∧ db = 1
        · rw [if_pos hp, if_pos hp.1]
          have := ih1.1
          omega
        · rw [if_neg hp]
          have := ih1.1
          split <;> omega
      · rw [hA, hC]
        by_cases hp : da = -1 ∧ db = 1
        · obtain ⟨ha, hb⟩ := hp
          subst ha; subst hb
          rw [if_pos ⟨rfl, rfl⟩, if_neg (by norm_num)]
          have hE : countDelIns (((1, s2), m2) :: rest) = countDelIns rest :=
            countDelIns_cons_ne _ _ (by norm_num)
          have hF : countOp 1 (((1, s2), m2) :: rest) = countOp 1 rest + 1 := by
            rw [countOp_cons]; norm_num
          have := ih2.2
          omega
        · rw [if_neg hp]
          have := ih1.2
          split <;> omega

/-- The combined counting invariant of the run loop: each deleteFromText1 run
    immediately followed by an insertFromText2 run is consumed as one
    substitution record, so the record count drops by exactly the number of
    such adjacent pairs, and deletion and insertion record counts are the
    run-tag counts minus the merged pairs. -/
theorem handleDiffLoop_counts (c1 c2 : String) :
    ∀ (N : Nat) (runs : List ((Int × String) × Nat)) (o1 o2 : List (Int × Int)),
      runs.length ≤ N →
      (∀ r ∈ runs, r.1.1 = -1 ∨ r.1.1 = 0 ∨ r.1.1 = 1) →
      (handleDiffLoop c1 c2 runs o1 o2).length = runs.length - countDelIns runs ∧
      countType "substitution" (handleDiffLoop c1 c2 runs o1 o2) = countDelIns runs ∧
      countType "deletion" (handleDiffLoop c1 c2 runs o1 o2) =
        countOp (-1) runs - countDelIns runs ∧
      countType "insertion" (handleDiffLoop c1 c2 runs o1 o2) =
        countOp 1 runs - countDelIns runs := by
  intro N
  induction N with
  | zero =>
    intro runs o1 o2 hlen _
    have hr : runs = [] := List.length_eq_zero.mp (Nat.le_zero.mp hlen)
    subst hr
    simp [handleDiffLoop_nil, countDelIns, countType, countOp]
  | succ N ih =>
    intro runs o1 o2 hlen hv
    match runs with
    | [] => simp [handleDiffLoop_nil, countDelIns, countType, countOp]
    | ((dt, ds), n) :: rest =>
      rcases hv _ (List.mem_cons_self _ _) with hdt | hdt | hdt
      · -- deleteFromText1 run
        subst hdt
        match rest with
        | [] =>
          rw [handleDiffLoop_del_single]
          simp [countType_cons, countType, countOp_cons, countOp, countDelIns,
            mkRecord_edit_type]
        | ((dt2, ds2), n2) :: rest2 =>
          by_cases hdt2 : dt2 = 1
          · subst hdt2
            rw [handleDiffLoop_sub]
            have hlen2 : rest2.length ≤ N := by
              simp only [List.length_cons] at hlen; omega
            have hv2 : ∀ r ∈ rest2, r.1.1 = -1 ∨ r.1.1 = 0 ∨ r.1.1 = 1 := by
              intro r hr; exact hv r (by simp [hr])
            obtain ⟨ihl, ihs, ihd, ihi⟩ := ih rest2 (deque o1 (pyStrip ds) n).2
              (deque o2 (pyStrip ds) n2).2 hlen2 hv2
            have hle := countDelIns_le_length rest2
            have e1 : countOp (-1) (((-1, ds), n) :: ((1, ds2), n2) :: rest2) =
                countOp (-1) rest2 + 1 := by
              rw [countOp_cons, countOp_cons]; norm_num
            have e2 : countOp 1 (((-1, ds), n) :: ((1, ds2), n2) :: rest2) =
                countOp 1 rest2 + 1 := by
              rw [countOp_cons, countOp_cons]; norm_num
            rw [countDelIns_sub]
            refine ⟨?_, ?_, ?_, ?_⟩
            · simp only [List.length_cons, ihl]
              omega
            · rw [countType_cons, ihs, mkRecord_edit_type, if_pos rfl]
            · rw [countType_cons, ihd, mkRecord_edit_type, if_neg (by decide), e1]
              omega
            · rw [countType_cons, ihi, mkRecord_edit_type, if_neg (by decide), e2]
              omega
          · rw [handleDiffLoop_del _ _ _ _ _ _ _ _ _ _ hdt2]
            have hlen2 : (((dt2, ds2), n2) :: rest2).length ≤ N := by
              simp only [List.length_cons] at hlen ⊢; omega
            have hv2 : ∀ r ∈ ((dt2, ds2), n2) :: rest2,
                r.1.1 = -1 ∨ r.1.1 = 0 ∨ r.1.1 = 1 := by
              intro r hr
              exact hv r (List.mem_cons_of_mem _ hr)
            obtain ⟨ihl, ihs, ihd, ihi⟩ := ih (((dt2, ds2), n2) :: rest2)
              (deque o1 (pyStrip ds) n).2 o2 hlen2 hv2
            have hle := countDelIns_le_length (((dt2, ds2), n2) :: rest2)
            have e1 : countOp (-1) (((-1, ds), n) :: ((dt2, ds2), n2) :: rest2) =
                countOp (-1) (((dt2, ds2), n2) :: rest2) + 1 := by
              rw [countOp_cons]; norm_num
            have e2 : countOp 1 (((-1, ds), n) :: ((dt2, ds2), n2) :: rest2) =
                countOp 1 (((dt2, ds2), n2) :: rest2) := by
              rw [countOp_cons]; norm_num
            rw [countDelIns_del _ _ _ _ _ _ hdt2]
            refine ⟨?_, ?_, ?_, ?_⟩
            · simp only [List.length_cons, ihl]
              simp only [List.length_cons] at hle
              omega
            · rw [countType_cons, ihs, mkRecord_edit_type, if_neg (by decide)]
              omega
            · rw [countType_cons, ihd, mkRecord_edit_type, if_pos rfl, e1]
              have hco := (countDelIns_le_countOps (((dt2, ds2), n2) :: rest2).length
                (((dt2, ds2), n2) :: rest2) (le_refl _)).1
              omega
            · rw [countType_cons, ihi, mkRecord_edit_type, if_neg (by decide), e2]
              omega
      · -- equal run
        subst hdt
        rw [handleDiffLoop_same]
        have hlen2 : rest.length ≤ N := by
          simp only [List.length_cons] at hlen; omega
        have hv2 : ∀ r ∈ rest, r.1.1 = -1 ∨ r.1.1 = 0 ∨ r.1.1 = 1 := by
          intro r hr; exact hv r (by simp [hr])
        obtain ⟨ihl, ihs, ihd, ihi⟩ := ih rest (deque o1 (pyStrip ds) n).2
          (deque o2 (pyStrip ds) n).2 hlen2 hv2
        have hle := countDelIns_le_length rest
        have e1 : countOp (-1) (((0, ds), n) :: rest) = countOp (-1) rest := by
          rw [countOp_cons]; norm_num
        have e2 : countOp 1 (((0, ds), n) :: rest) = countOp 1 rest := by
          rw [countOp_cons]; norm_num
        rw [countDelIns_cons_ne _ _ (by norm_num)]
        refine ⟨?_, ?_, ?_, ?_⟩
        · simp only [List.length_cons, ihl]
          omega
        · rw [countType_cons, ihs, mkRecord_edit_type, if_neg (by decide)]
          omega
        · rw [countType_cons, ihd, mkRecord_edit_type, if_neg (by decide), e1]
          omega
        · rw [countType_cons, ihi, mkRecord_edit_type, if_neg (by decide), e2]
          omega
      · -- insertFromText2 run
        subst hdt
        rw [handleDiffLoop_ins]
        have hlen2 : rest.length ≤ N := by
          simp only [List.length_cons] at hlen; omega
        have hv2 : ∀ r ∈ rest, r.1.1 = -1 ∨ r.1.1 = 0 ∨ r.1.1 = 1 := by
          intro r hr; exact hv r (by simp [hr])
        obtain ⟨ihl, ihs, ihd, ihi⟩ := ih rest o1 (deque o2 (pyStrip ds) n).2 hlen2 hv2
        have hle := countDelIns_le_length rest
        have e1 : countOp (-1) (((1, ds), n) :: rest) = countOp (-1) rest := by
          rw [countOp_cons]; norm_num
        have e2 : countOp 1 (((1, ds), n) :: rest) = countOp 1 rest + 1 := by
          rw [countOp_cons]; norm_num
        rw [countDelIns_cons_ne _ _ (by norm_num)]
        refine ⟨?_, ?_, ?_, ?_⟩
        · simp only [List.length_cons, ihl]
          omega
        · rw [countType_cons, ihs, mkRecord_edit_type, if_neg (by decide)]
          omega
        · rw [countType_cons, ihd, mkRecord_edit_type, if_neg (by decide), e1]
          omega
        · rw [countType_cons, ihi, mkRecord_edit_type, if_pos rfl, e2]
          have hco := (countDelIns_le_countOps rest.length rest (le_refl _)).2
          omega

theorem handleDiffLoop_length (c1 c2 : String) (runs : List ((Int × String) × Nat))
    (o1 o2 : List (Int × Int))
    (hv : ∀ r ∈ runs, r.1.1 = -1 ∨ r.1.1 = 0 ∨ r.1.1 = 1) :
    (handleDiffLoop c1 c2 runs o1 o2).length = runs.length - countDelIns runs :=
  (handleDiffLoop_counts c1 c2 runs.length runs o1 o2 (le_refl _) hv).1

/-! ## Deque lemmas and claims C4, C5 -/

theorem deque_nil (ol : List (Int × Int)) (s : String) (n : Nat) (h : ol.take n = []) :
    deque ol s n = ((-1, -1), ol.drop n) := by
  simp [deque, h]

theorem deque_cons (ol : List (Int × Int)) (s : String) (n : Nat) (h : ol.take n ≠ []) :
    (deque ol s n).1 = (((ol.take n).headD (0, 0)).1,
      ((ol.take n).getLastD (0, 0)).2 - (quoteMarkers s : Int)) ∧
    (deque ol s n).2 = ol.drop n := by
  rcases hc : ol.take n with _ | ⟨d, ds⟩
  · exact absurd hc h
  · simp [deque, hc]

/-- Claim C4 (amended): the offset consumer substitutes the sentinel span
    exactly when the remaining offsets list contributes no entries (the list
    is empty or the token count is zero); when the list is non-empty but
    SHORTER than the token count, the span is computed from the entries that
    are available (no sentinel); consumption is a total function (Python list
    slicing never raises) and the classifier keeps processing the remaining
    runs, emitting one record per run or merged run pair even with exhausted
    offset lists. -/
theorem offset_underrun_recovery (ol : List (Int × Int)) (s : String) (n : Nat) :
    (ol.take n = [] → deque ol s n = ((-1, -1), ol.drop n)) ∧
    (ol.take n ≠ [] →
      (deque ol s n).1 = (((ol.take n).headD (0, 0)).1,
        ((ol.take n).getLastD (0, 0)).2 - (quoteMarkers s : Int)) ∧
      (deque ol s n).2 = ol.drop n) ∧
    (∀ c1 c2 runs o2, (∀ r ∈ runs, r.1.1 = -1 ∨ r.1.1 = 0 ∨ r.1.1 = 1) →
      (handleDiffLoop c1 c2 runs ol o2).length = runs.length - countDelIns runs) :=
  ⟨deque_nil ol s n, fun h => deque_cons ol s n h,
   fun c1 c2 runs o2 hv => handleDiffLoop_length c1 c2 runs ol o2 hv⟩

theorem offset_underrun_recovery_witness :
    deque ([] : List (Int × Int)) "ab" 3 = ((-1, -1), []) ∧
    (deque [((0 : Int), (2 : Int)), (3, 5)] "ab" 5).1 = (0, 5) := by
  constructor
  · exact (offset_underrun_recovery [] "ab" 3).1 rfl
  · have h := ((offset_underrun_recovery [((0 : Int), (2 : Int)), (3, 5)] "ab" 5).2.1
      (by decide)).1
    rw [h]
    decide

/-- Claim C4 as stated is false: with two remaining offsets and a deletion
    run of tokenCount 5 (fewer entries than the token count), the classifier
    emits the real span `(0, 5)` built from the available entries, not the
    sentinel `(-1, -1)`. -/
theorem offset_underrun_counterexample :
    (handleDiffLoop "" "" [(((-1 : Int), "x"), 5)]
        [((0 : Int), (2 : Int)), (3, 5)] []).map (fun r => r.offset1) =
      [((0 : Int), (5 : Int))] ∧
    (((0 : Int), (5 : Int)) : Int × Int) ≠ (-1, -1) ∧
    ([((0 : Int), (2 : Int)), (3, 5)] : List (Int × Int)).length < 5 := by
  decide

/-- Claim C5 (amended): a non-sentinel span end equals the last consumed
    entry end minus the quote-marker count of the string handed to the
    offset consumer; for same, deletion and insertion records (and a
    substitution record offset1) that string is the run itself, but for a
    substitution record offset2 it is the DELETED run text `diff_string`,
    not the inserted run text. -/
theorem quote_drift_correction (c1 c2 ds ds2 : String) (n n2 : Nat)
    (rest2 : List ((Int × String) × Nat)) (o1 o2 : List (Int × Int)) :
    (handleDiffLoop c1 c2 (((-1, ds), n) :: ((1, ds2), n2) :: rest2) o1 o2).head? =
      some (mkRecord c1 c2 "substitution" (deque o1 (pyStrip ds) n).1
        (deque o2 (pyStrip ds) n2).1) ∧
    (∀ (ol : List (Int × Int)) (s : String) (m : Nat), ol.take m ≠ [] →
      (deque ol s m).1.2 = ((ol.take m).getLastD (0, 0)).2 - (quoteMarkers s : Int)) := by
  constructor
  · rw [handleDiffLoop_sub]; rfl
  · intro ol s m hm
    rw [(deque_cons ol s m hm).1]

theorem quote_drift_correction_witness :
    (handleDiffLoop "" "" [(((-1 : Int), "x"), 1), (((1 : Int), "y"), 1)]
        [((0 : Int), (1 : Int))] [((10 : Int), (17 : Int))]).head? =
      some (mkRecord "" "" "substitution"
        (deque [((0 : Int), (1 : Int))] (pyStrip "x") 1).1
        (deque [((10 : Int), (17 : Int))] (pyStrip "x") 1).1) ∧
    (deque [((10 : Int), (17 : Int))] "z" 1).1.2 =
      (([((10 : Int), (17 : Int))].take 1).getLastD (0, 0)).2 - (quoteMarkers "z" : Int) :=
  ⟨(quote_drift_correction "" "" "x" "y" 1 1 [] [((0 : Int), (1 : Int))]
      [((10 : Int), (17 : Int))]).1,
   (quote_drift_correction "" "" "x" "y" 1 1 [] [] []).2
      [((10 : Int), (17 : Int))] "z" 1 (by decide)⟩

/-- Claim C5 as stated is false: for a substitution whose inserted (text2)
    run contains two quote markers while the deleted run contains none, the
    emitted offset2 is `(10, 17)` (corrected by the deleted run marker
    count, zero), not `(10, 15)` as correcting by the inserted run marker
    count would give. -/
theorem quote_drift_counterexample :
    ((handleDiffLoop "" "" [(((-1 : Int), "x"), 1),
        (((1 : Int), String.mk [backquote, backquote, 'y', singleQuote, singleQuote]), 1)]
        [((0 : Int), (1 : Int))] [((10 : Int), (17 : Int))]).map (fun r => r.offset2)) =
      [((10 : Int), (17 : Int))] ∧
    (17 : Int) ≠ 17 -
      (quoteMarkers (String.mk [backquote, backquote, 'y', singleQuote, singleQuote]) : Int) := by
  decide

/-- Claim C2: in the classifier output, every deleteFromText1 run whose
    immediate successor is an insertFromText2 run is emitted as exactly one
    substitution record consuming both runs: the substitution record count
    equals the adjacent delete-insert pair count, the output length drops by
    exactly that pair count, and the deletion and insertion record counts
    are the respective run-tag counts minus the merged pairs (so no such
    pair is ever emitted as a separate deletion plus insertion). -/
theorem substitution_merge (c1 c2 : String) (runs : List ((Int × String) × Nat))
    (o1 o2 : List (Int × Int))
    (hv : ∀ r ∈ runs, r.1.1 = -1 ∨ r.1.1 = 0 ∨ r.1.1 = 1) :
    countType "substitution" (handleDiffLoop c1 c2 runs o1 o2) = countDelIns runs ∧
    (handleDiffLoop c1 c2 runs o1 o2).length = runs.length - countDelIns runs ∧
    countType "deletion" (handleDiffLoop c1 c2 runs o1 o2) =
      countOp (-1) runs - countDelIns runs ∧
    countType "insertion" (handleDiffLoop c1 c2 runs o1 o2) =
      countOp 1 runs - countDelIns runs := by
  obtain ⟨a, b, c, d⟩ := handleDiffLoop_counts c1 c2 runs.length runs o1 o2 (le_refl _) hv
  exact ⟨b, a, c, d⟩

theorem substitution_merge_witness :
    countType "substitution" (handleDiffLoop "" ""
        [(((-1 : Int), "a"), 1), (((1 : Int), "b"), 1)] [] []) =
      countDelIns [(((-1 : Int), "a"), 1), (((1 : Int), "b"), 1)] ∧
    (handleDiffLoop "" "" [(((-1 : Int), "a"), 1), (((1 : Int), "b"), 1)] [] []).length =
      2 - countDelIns [(((-1 : Int), "a"), 1), (((1 : Int), "b"), 1)] := by
  have h := substitution_merge "" "" [(((-1 : Int), "a"), 1), (((1 : Int), "b"), 1)] [] []
    (by decide)
  exact ⟨h.1, h.2.1⟩

/-! ## Claim C3: sentinel correctness -/

theorem handleDiffLoop_junk_single (c1 c2 ds : String) (dt : Int) (n : Nat)
    (o1 o2 : List (Int × Int)) (h1 : dt ≠ -1) (h2 : dt ≠ 1) (h3 : dt ≠ 0) :
    handleDiffLoop c1 c2 [((dt, ds), n)] o1 o2 = [] := by
  simp [handleDiffLoop, h1, h2, h3]

theorem handleDiffLoop_junk_cons (c1 c2 ds ds2 : String) (dt dt2 : Int) (n n2 : Nat)
    (rest2 : List ((Int × String) × Nat)) (o1 o2 : List (Int × Int))
    (h1 : dt ≠ -1) (h2 : dt ≠ 1) (h3 : dt ≠ 0) :
    handleDiffLoop c1 c2 (((dt, ds), n) :: ((dt2, ds2), n2) :: rest2) o1 o2 =
      handleDiffLoop c1 c2 (((dt2, ds2), n2) :: rest2) o1 o2 := by
  simp [handleDiffLoop, h1, h2, h3]

theorem mkRecord_offset1 (c1 c2 et : String) (a b : Int × Int) :
    (mkRecord c1 c2 et a b).offset1 = a := rfl

theorem mkRecord_offset2 (c1 c2 et : String) (a b : Int × Int) :
    (mkRecord c1 c2 et a b).offset2 = b := rfl

theorem mkRecord_text1_sentinel (c1 c2 et : String) (b : Int × Int) :
    (mkRecord c1 c2 et (-1, -1) b).text1 = "" := by
  norm_num [mkRecord]

theorem mkRecord_text2_sentinel (c1 c2 et : String) (a : Int × Int) :
    (mkRecord c1 c2 et a (-1, -1)).text2 = "" := by
  norm_num [mkRecord]

theorem mkRecord_type_ne (c1 c2 et t : String) (a b : Int × Int) (h : et ≠ t) :
    ¬ (mkRecord c1 c2 et a b).edit_type = t := by
  rw [mkRecord_edit_type]; exact h

/-- The aligned-sentence diff path never attaches real data to the absent
    side: deletion records carry the sentinel offset2 and empty text2,
    insertion records the sentinel offset1 and empty text1. -/
theorem handleDiffLoop_sentinels (c1 c2 : String) :
    ∀ (N : Nat) (runs : List ((Int × String) × Nat)) (o1 o2 : List (Int × Int)),
      runs.length ≤ N →
      ∀ r ∈ handleDiffLoop c1 c2 runs o1 o2,
        (r.edit_type = "deletion" → r.offset2 = (-1, -1) ∧ r.text2 = "") ∧
        (r.edit_type = "insertion" → r.offset1 = (-1, -1) ∧ r.text1 = "") := by
  intro N
  induction N with
  | zero =>
    intro runs o1 o2 hlen r hr
    have : runs = [] := List.length_eq_zero.mp (Nat.le_zero.mp hlen)
    subst this
    simp [handleDiffLoop_nil] at hr
  | succ N ih =>
    intro runs o1 o2 hlen r hr
    match runs with
    | [] => simp [handleDiffLoop_nil] at hr
    | [((dt, ds), n)] =>
      by_cases h1 : dt = -1
      · subst h1
        rw [handleDiffLoop_del_single] at hr
        simp only [List.mem_singleton] at hr
        subst hr
        refine ⟨fun _ => ⟨mkRecord_offset2 _ _ _ _ _, mkRecord_text2_sentinel _ _ _ _⟩,
          fun hk => absurd hk (mkRecord_type_ne _ _ _ _ _ _ (by decide))⟩
      · by_cases h2 : dt = 1
        · subst h2
          rw [handleDiffLoop_ins] at hr
          simp only [handleDiffLoop_nil, List.mem_singleton] at hr
          subst hr
          refine ⟨fun hk => absurd hk (mkRecord_type_ne _ _ _ _ _ _ (by decide)),
            fun _ => ⟨mkRecord_offset1 _ _ _ _ _, mkRecord_text1_sentinel _ _ _ _⟩⟩
        · by_cases h3 : dt = 0
          · subst h3
            rw [handleDiffLoop_same] at hr
            simp only [handleDiffLoop_nil, List.mem_singleton] at hr
            subst hr
            exact ⟨fun hk => absurd hk (mkRecord_type_ne _ _ _ _ _ _ (by decide)), fun hk => absurd hk (mkRecord_type_ne _ _ _ _ _ _ (by decide))⟩
          · rw [handleDiffLoop_junk_single _ _ _ _ _ _ _ h1 h2 h3] at hr
            simp at hr
    | ((dt, ds), n) :: ((dt2, ds2), n2) :: rest2 =>
      simp only [List.length_cons] at hlen
      by_cases h1 : dt = -1
      · subst h1
        by_cases h2 : dt2 = 1
        · subst h2
          rw [handleDiffLoop_sub] at hr
          rcases List.mem_cons.mp hr with hr0 | hr1
          · subst hr0
            exact ⟨fun hk => absurd hk (mkRecord_type_ne _ _ _ _ _ _ (by decide)), fun hk => absurd hk (mkRecord_type_ne _ _ _ _ _ _ (by decide))⟩
          · exact ih rest2 _ _ (by omega) r hr1
        · rw [handleDiffLoop_del _ _ _ _ _ _ _ _ _ _ h2] at hr
          rcases List.mem_cons.mp hr with hr0 | hr1
          · subst hr0
            refine ⟨fun _ => ⟨mkRecord_offset2 _ _ _ _ _, mkRecord_text2_sentinel _ _ _ _⟩,
              fun hk => absurd hk (mkRecord_type_ne _ _ _ _ _ _ (by decide))⟩
          · exact ih (((dt2, ds2), n2) :: rest2) _ _ (by simp only [List.length_cons]; omega)
              r hr1
      · by_cases h2 : dt = 1
        · subst h2
          rw [handleDiffLoop_ins] at hr
          rcases List.mem_cons.mp hr with hr0 | hr1
          · subst hr0
            refine ⟨fun hk => absurd hk (mkRecord_type_ne _ _ _ _ _ _ (by decide)),
              fun _ => ⟨mkRecord_offset1 _ _ _ _ _, mkRecord_text1_sentinel _ _ _ _⟩⟩
          · exact ih (((dt2, ds2), n2) :: rest2) _ _ (by simp only [List.length_cons]; omega)
              r hr1
        · by_cases h3 : dt = 0
          · subst h3
            rw [handleDiffLoop_same] at hr
            rcases List.mem_cons.mp hr with hr0 | hr1
            · subst hr0
              exact ⟨fun hk => absurd hk (mkRecord_type_ne _ _ _ _ _ _ (by decide)), fun hk => absurd hk (mkRecord_type_ne _ _ _ _ _ _ (by decide))⟩
            · exact ih (((dt2, ds2), n2) :: rest2) _ _
                (by simp only [List.length_cons]; omega) r hr1
          · rw [handleDiffLoop_junk_cons _ _ _ _ _ _ _ _ _ _ _ h1 h2 h3] at hr
            exact ih (((dt2, ds2), n2) :: rest2) _ _ (by simp only [List.length_cons]; omega)
              r hr

/-- Claim C3: every emitted deletion record has offset2 = (-1, -1) and
    text2 = "", and every insertion record has offset1 = (-1, -1) and
    text1 = "", both in the aligned-sentence diff path (`handle_diff`) and
    in the unaligned-paragraph path (`add_unaligned_paragraphs`). -/
theorem sentinel_correctness (c1 c2 : String) (runs : List ((Int × String) × Nat))
    (o1 o2 : List (Int × Int)) (r : EditRecord)
    (hr : r ∈ handleDiffLoop c1 c2 runs o1 o2) :
    ((r.edit_type = "deletion" → r.offset2 = (-1, -1) ∧ r.text2 = "") ∧
     (r.edit_type = "insertion" → r.offset1 = (-1, -1) ∧ r.text1 = "")) ∧
    (∀ (et : String) (off : Int × Int) (stext : String),
      (et = "deletion" → (unalignedParagraphEdit et off stext).offset2 = (-1, -1) ∧
        (unalignedParagraphEdit et off stext).text2 = "") ∧
      (et = "insertion" → (unalignedParagraphEdit et off stext).offset1 = (-1, -1) ∧
        (unalignedParagraphEdit et off stext).text1 = "")) := by
  refine ⟨handleDiffLoop_sentinels c1 c2 runs.length runs o1 o2 (le_refl _) r hr, ?_⟩
  intro et off stext
  constructor
  · intro he
    subst he
    constructor
    · simp [unalignedParagraphEdit]
    · simp [unalignedParagraphEdit]
  · intro he
    subst he
    constructor
    · simp [unalignedParagraphEdit]
    · simp [unalignedParagraphEdit]

theorem sentinel_correctness_witness :
    (mkRecord "" "" "deletion" ((0 : Int), (3 : Int)) (-1, -1) ∈
      handleDiffLoop "" "" [(((-1 : Int), "del"), 1)] [((0 : Int), (3 : Int))] []) ∧
    ((mkRecord "" "" "deletion" ((0 : Int), (3 : Int)) (-1, -1)).edit_type = "deletion" →
      (mkRecord "" "" "deletion" ((0 : Int), (3 : Int)) (-1, -1)).offset2 = (-1, -1) ∧
      (mkRecord "" "" "deletion" ((0 : Int), (3 : Int)) (-1, -1)).text2 = "") := by
  have hm : mkRecord "" "" "deletion" ((0 : Int), (3 : Int)) (-1, -1) ∈
      handleDiffLoop "" "" [(((-1 : Int), "del"), 1)] [((0 : Int), (3 : Int))] [] := by
    decide
  exact ⟨hm, (sentinel_correctness "" "" _ _ _ _ hm).1.1⟩

/-! ## Claim C6: the Sentence Offset Table -/

theorem getSentenceOffsetsAux_none (so : Nat → Option (List (Int × Int)))
    (ps : List String) (p : String) (i : Nat) (curr : Int) (hso : so i = none) :
    getSentenceOffsetsAux so (p :: ps) i curr =
      (-1, -1) :: getSentenceOffsetsAux so ps (i + 1) (curr + 1) := by
  simp [getSentenceOffsetsAux, hso]

theorem getSentenceOffsetsAux_some (so : Nat → Option (List (Int × Int)))
    (ps : List String) (p : String) (i : Nat) (curr : Int)
    (ol : List (Int × Int)) (hso : so i = some ol) :
    getSentenceOffsetsAux so (p :: ps) i curr =
      ol.map (fun be => (be.1 + curr, be.2 + curr)) ++
        getSentenceOffsetsAux so ps (i + 1) (nextCursor p curr ol) := by
  simp [getSentenceOffsetsAux, hso]

theorem nextCursor_lb (p : String) (curr : Int) (ol : List (Int × Int)) :
    curr + (ol.getLastD (0, 0)).2 + 1 ≤ nextCursor p curr ol := by
  simp only [nextCursor]
  have := Int.natCast_nonneg ((p.length - (pyStrip p).length : Nat))
  split <;> omega

/-- One-paragraph-at-a-time invariant of the Sentence Offset Table loop:
    slot counts are as expected, non-sentinel entries stay at or after the
    cursor with end above begin, and they are sorted by begin. -/
theorem getSentenceOffsetsAux_spec (so : Nat → Option (List (Int × Int))) :
    ∀ (ps : List String) (i : Nat) (curr : Int), 0 ≤ curr →
      (∀ k, k < ps.length → ∀ l, so (i + k) = some l →
        l ≠ [] ∧ (∀ be ∈ l, 0 ≤ be.1 ∧ be.1 < be.2) ∧
          l.Pairwise (fun x y => x.1 ≤ y.1)) →
      (getSentenceOffsetsAux so ps i curr).length = slotCount so ps i ∧
      ((getSentenceOffsetsAux so ps i curr).filter
          (fun e => e == ((-1 : Int), (-1 : Int)))).length = blankSlotCount so ps i ∧
      (∀ e ∈ (getSentenceOffsetsAux so ps i curr).filter
          (fun e => e != ((-1 : Int), (-1 : Int))), curr ≤ e.1 ∧ e.1 < e.2) ∧
      ((getSentenceOffsetsAux so ps i curr).filter
          (fun e => e != ((-1 : Int), (-1 : Int)))).Pairwise (fun x y => x.1 ≤ y.1) := by
  intro ps
  induction ps with
  | nil =>
    intro i curr h0 H
    simp [getSentenceOffsetsAux, slotCount, blankSlotCount]
  | cons p rest ih =>
    intro i curr h0 H
    cases hso : so i with
    | none =>
      have Hrest : ∀ k, k < rest.length → ∀ l, so ((i + 1) + k) = some l →
          l ≠ [] ∧ (∀ be ∈ l, 0 ≤ be.1 ∧ be.1 < be.2) ∧
            l.Pairwise (fun x y => x.1 ≤ y.1) := by
        intro k hk l hl
        refine H (k + 1) (by simp only [List.length_cons]; omega) l ?_
        rwa [show i + (k + 1) = i + 1 + k by omega]
      obtain ⟨ih1, ih2, ih3, ih4⟩ := ih (i + 1) (curr + 1) (by omega) Hrest
      rw [getSentenceOffsetsAux_none so rest p i curr hso]
      have hs : ((((-1 : Int), (-1 : Int)) : Int × Int) == ((-1 : Int), (-1 : Int))) = true := by
        decide
      have hs2 : ((((-1 : Int), (-1 : Int)) : Int × Int) != ((-1 : Int), (-1 : Int))) = false := by
        decide
      refine ⟨?_, ?_, ?_, ?_⟩
      · simp only [List.length_cons, ih1, slotCount, hso]
        omega
      · rw [List.filter_cons]
        simp only [hs, if_true, List.length_cons, ih2]
        simp only [blankSlotCount, hso]
        omega
      · rw [List.filter_cons]
        simp only [hs2, Bool.false_eq_true, if_false]
        intro e he
        have := ih3 e he
        omega
      · rw [List.filter_cons]
        simp only [hs2, Bool.false_eq_true, if_false]
        exact ih4
    | some ol =>
      obtain ⟨hne, hbe, hpw⟩ := H 0 (by simp) ol (by simpa using hso)
      have hlast_mem := getLastD_mem ol ((0 : Int), (0 : Int)) hne
      obtain ⟨hl0, hl1⟩ := hbe _ hlast_mem
      have hcur2 : curr + (ol.getLastD (0, 0)).2 + 1 ≤ nextCursor p curr ol :=
        nextCursor_lb p curr ol
      have h02 : 0 ≤ nextCursor p curr ol := by omega
      have Hrest : ∀ k, k < rest.length → ∀ l, so ((i + 1) + k) = some l →
          l ≠ [] ∧ (∀ be ∈ l, 0 ≤ be.1 ∧ be.1 < be.2) ∧
            l.Pairwise (fun x y => x.1 ≤ y.1) := by
        intro k hk l hl
        refine H (k + 1) (by simp only [List.length_cons]; omega) l ?_
        rwa [show i + (k + 1) = i + 1 + k by omega]
      obtain ⟨ih1, ih2, ih3, ih4⟩ := ih (i + 1) (nextCursor p curr ol) h02 Hrest
      rw [getSentenceOffsetsAux_some so rest p i curr ol hso]
      have hmem_shift : ∀ e ∈ ol.map (fun be => (be.1 + curr, be.2 + curr)),
          curr ≤ e.1 ∧ e.1 < e.2 ∧ e.1 ≤ (ol.getLastD (0, 0)).1 + curr := by
        intro e he
        obtain ⟨be, hbe2, rfl⟩ := List.mem_map.mp he
        obtain ⟨hb0, hb1⟩ := hbe _ hbe2
        have hble := pairwise_fst_le_getLastD ol (0, 0) hpw _ hbe2
        exact ⟨by omega, by omega, by omega⟩
      have hns : ∀ e ∈ ol.map (fun be => (be.1 + curr, be.2 + curr)),
          (e != ((-1 : Int), (-1 : Int))) = true := by
        intro e he
        have := (hmem_shift e he).1
        rw [bne_iff_ne]
        intro hcontra
        rw [hcontra] at this
        omega
      have hfilter_ne : (ol.map (fun be => (be.1 + curr, be.2 + curr))).filter
          (fun e => e != ((-1 : Int), (-1 : Int))) =
          ol.map (fun be => (be.1 + curr, be.2 + curr)) :=
        List.filter_eq_self.mpr hns
      have hfilter_eq : (ol.map (fun be => (be.1 + curr, be.2 + curr))).filter
          (fun e => e == ((-1 : Int), (-1 : Int))) = [] := by
        rw [List.filter_eq_nil_iff]
        intro e he
        have h1 := hns e he
        rw [bne_iff_ne] at h1
        rw [beq_iff_eq]
        exact h1
      refine ⟨?_, ?_, ?_, ?_⟩
      · rw [List.length_append, List.length_map, ih1]
        simp only [slotCount, hso]
      · rw [List.filter_append, hfilter_eq, List.nil_append, ih2]
        simp only [blankSlotCount, hso]
        omega
      · rw [List.filter_append, hfilter_ne]
        intro e he
        rcases List.mem_append.mp he with h1 | h1
        · obtain ⟨a, b, c⟩ := hmem_shift e h1
          exact ⟨a, b⟩
        · obtain ⟨a, b⟩ := ih3 e h1
          exact ⟨by omega, b⟩
      · rw [List.filter_append, hfilter_ne, List.pairwise_append]
        refine ⟨?_, ih4, ?_⟩
        · exact List.Pairwise.map _ (fun a b hab => by
            simp only []
            omega) hpw
        · intro x hx y hy
          obtain ⟨a, b, c⟩ := hmem_shift x hx
          obtain ⟨d, e⟩ := ih3 y hy
          omega

/-- Claim C6: for every document, the Sentence Offset Table built by
    `get_sentence_offsets` has exactly one entry per sentence of every
    non-blank paragraph plus one sentinel `(-1, -1)` slot per blank
    paragraph, and the non-sentinel entries are monotonically non-decreasing
    in begin in document order with `end > begin` for each, provided the
    tokenizer-supplied local spans are well formed (non-empty per non-blank
    paragraph, `0 ≤ begin < end`, sorted by begin). -/
theorem sentence_offset_table (paragraphs : List String)
    (so : Nat → Option (List (Int × Int))) (h : SpansWF so paragraphs) :
    (get_sentence_offsets paragraphs so).length = slotCount so paragraphs 0 ∧
    ((get_sentence_offsets paragraphs so).filter
        (fun e => e == ((-1 : Int), (-1 : Int)))).length = blankSlotCount so paragraphs 0 ∧
    (∀ e ∈ (get_sentence_offsets paragraphs so).filter
        (fun e => e != ((-1 : Int), (-1 : Int))), e.1 < e.2) ∧
    ((get_sentence_offsets paragraphs so).filter
        (fun e => e != ((-1 : Int), (-1 : Int)))).Pairwise (fun x y => x.1 ≤ y.1) := by
  have H : ∀ k, k < paragraphs.length → ∀ l, so (0 + k) = some l →
      l ≠ [] ∧ (∀ be ∈ l, 0 ≤ be.1 ∧ be.1 < be.2) ∧
        l.Pairwise (fun x y => x.1 ≤ y.1) := by
    intro k hk l hl
    exact h k hk l (by simpa using hl)
  obtain ⟨h1, h2, h3, h4⟩ := getSentenceOffsetsAux_spec so paragraphs 0 0 (le_refl _) H
  exact ⟨h1, h2, fun e he => (h3 e he).2, h4⟩

theorem sentence_offset_table_witness :
    SpansWF so0 ps0 ∧
    (get_sentence_offsets ps0 so0).length = slotCount so0 ps0 0 ∧
    ((get_sentence_offsets ps0 so0).filter
        (fun e => e != ((-1 : Int), (-1 : Int)))).Pairwise (fun x y => x.1 ≤ y.1) := by
  have hwf : SpansWF so0 ps0 := by
    intro i hi l hl
    simp only [ps0, List.length_cons, List.length_nil] at hi
    interval_cases i
    · norm_num [so0] at hl
      subst hl
      exact ⟨by decide, by decide, by decide⟩
    · norm_num [so0] at hl
      exact Option.noConfusion hl
    · norm_num [so0] at hl
      subst hl
      exact ⟨by decide, by decide, by decide⟩
  have h := sentence_offset_table ps0 so0 hwf
  exact ⟨hwf, h.1, h.2.2.2⟩

/-! ## The line loop of the munge: claims C9 and C7 -/

theorem mungeWordsStep_good (tok : Tok) (acc : List String × List (Int × Int))
    (line : String) (h : goodLine tok line = true) :
    mungeWordsStep tok acc line =
      (acc.1 ++ (wordTuples tok line).map (fun w => w.1),
       (wordTuples tok line).map (fun w => w.2)) := by
  simp only [goodLine, Bool.and_eq_true, bne_iff_ne, Bool.not_eq_true', ne_eq] at h
  obtain ⟨h1, h2⟩ := h
  have h2b : wordTuples tok line ≠ [] := by
    intro hc
    rw [hc] at h2
    simp at h2
  simp [mungeWordsStep, h1, h2b]

theorem mungeWordsStep_bad (tok : Tok) (acc : List String × List (Int × Int))
    (line : String) (h : goodLine tok line = false) :
    mungeWordsStep tok acc line = acc := by
  simp only [goodLine, Bool.and_eq_false_iff] at h
  rcases h with h | h
  · rw [bne_eq_false_iff_eq] at h
    simp [mungeWordsStep, h]
  · rw [Bool.not_eq_false', List.isEmpty_iff] at h
    simp [mungeWordsStep, h]

/-- The `offset_list` accumulator is overwritten, not extended: after the
    loop it is the span list of the LAST contributing line (or the initial
    value when no line contributes). -/
theorem foldl_munge_snd (tok : Tok) :
    ∀ (ls : List String) (acc : List String × List (Int × Int)),
      ((ls.foldl (mungeWordsStep tok) acc).2) =
        ((ls.filter (goodLine tok)).map
          (fun l => (wordTuples tok l).map (fun w => w.2))).getLastD acc.2 := by
  intro ls
  induction ls with
  | nil => intro acc; simp
  | cons l rest ih =>
    intro acc
    by_cases hg : goodLine tok l = true
    · rw [List.foldl_cons, mungeWordsStep_good tok acc l hg, ih,
        List.filter_cons, if_pos hg, List.map_cons, List.getLastD_cons]
    · rw [List.foldl_cons, mungeWordsStep_bad tok acc l
        (Bool.not_eq_true _ ▸ hg), ih, List.filter_cons,
        if_neg (by simp [Bool.not_eq_true _ ▸ hg])]

/-- The `words` accumulator is extended with the word texts of every
    contributing line. -/
theorem foldl_munge_fst (tok : Tok) :
    ∀ (ls : List String) (acc : List String × List (Int × Int)),
      ((ls.foldl (mungeWordsStep tok) acc).1) =
        acc.1 ++ ((ls.filter (goodLine tok)).map
          (fun l => (wordTuples tok l).map (fun w => w.1))).flatten := by
  intro ls
  induction ls with
  | nil => intro acc; simp
  | cons l rest ih =>
    intro acc
    by_cases hg : goodLine tok l = true
    · rw [List.foldl_cons, mungeWordsStep_good tok acc l hg, ih,
        List.filter_cons, if_pos hg, List.map_cons, List.flatten_cons,
        List.append_assoc]
    · rw [List.foldl_cons, mungeWordsStep_bad tok acc l
        (Bool.not_eq_true _ ▸ hg), ih, List.filter_cons,
        if_neg (by simp [Bool.not_eq_true _ ▸ hg])]

/-- Claim C9: for every text, the per-token offset list returned by
    `diff_linesToCharsMunge` (and so by `diff_wordsToChars` and
    `diff_wordMode`) holds only the token offsets of the LAST contributing
    (non-blank, non-empty-token) line, because the loop reassigns
    `offset_list` on each such line instead of extending it; with at least
    two contributing lines the offset list is therefore strictly shorter
    than the word list that the symbol string encodes, and `diff_wordMode`
    passes the list through unchanged. -/
theorem offsets_last_line (tok : Tok) (text : String) (lGood : String)
    (h : ((pyLines text).filter (goodLine tok)).getLast? = some lGood) :
    (mungeWords tok text).2 = (wordTuples tok lGood).map (fun w => w.2) ∧
    (2 ≤ ((pyLines text).filter (goodLine tok)).length →
      (mungeWords tok text).2.length < (mungeWords tok text).1.length) ∧
    (∀ (d : List Nat → List Nat → List (Int × List Nat)) (t2 : String),
      (diff_wordMode d tok text t2).2.2.1 = (mungeWords tok text).2) := by
  have hsnd : (mungeWords tok text).2 =
      ((pyLines text).foldl (mungeWordsStep tok) ([], [])).2 := rfl
  have hlast : (mungeWords tok text).2 = (wordTuples tok lGood).map (fun w => w.2) := by
    rw [hsnd, foldl_munge_snd, List.getLastD_eq_getLast?, List.getLast?_map, h]
    rfl
  refine ⟨hlast, ?_, fun d t2 => rfl⟩
  intro h2
  set fr := (pyLines text).filter (goodLine tok) with hfr
  have hfr_ne : fr ≠ [] := by
    intro hcontra
    rw [hcontra] at h
    simp at h
  have hgood : ∀ x ∈ fr, goodLine tok x = true := by
    intro x hx
    exact (List.mem_filter.mp hx).2
  have hlens : ∀ x ∈ fr, 1 ≤ (wordTuples tok x).length := by
    intro x hx
    have hx2 := hgood x hx
    simp only [goodLine, Bool.and_eq_true, Bool.not_eq_true'] at hx2
    have h3 := hx2.2
    cases hwt : wordTuples tok x with
    | nil => rw [hwt] at h3; simp at h3
    | cons a t => simp
  have hfst : (mungeWords tok text).1.length =
      (if pyEndsWith text "\n" then
        (((pyLines text).foldl (mungeWordsStep tok) ([], [])).1 ++ ["\n"]).length
      else ((pyLines text).foldl (mungeWordsStep tok) ([], [])).1.length) := by
    simp only [mungeWords]
    split <;> rfl
  have hbase : ((pyLines text).foldl (mungeWordsStep tok) ([], [])).1.length =
      ((fr.map (fun l => (wordTuples tok l).map (fun w => w.1))).flatten).length := by
    rw [foldl_munge_fst]
    simp
  -- the flattened word count is the sum of per-line token counts
  have hsum : ((fr.map (fun l => (wordTuples tok l).map (fun w => w.1))).flatten).length =
      (fr.map (fun l => (wordTuples tok l).length)).sum := by
    rw [List.length_flatten, List.map_map]
    congr 1
    apply List.map_congr_left
    intro x hx
    simp
  -- split off the last contributing line
  have hlastEq : fr.getLast hfr_ne = lGood := by
    have := List.getLast?_eq_getLast fr hfr_ne
    rw [h] at this
    exact (Option.some_injective _ this.symm)
  have hsplit : fr.dropLast ++ [lGood] = fr := by
    rw [← hlastEq]
    exact List.dropLast_append_getLast hfr_ne
  have hdl_len : 1 ≤ fr.dropLast.length := by
    have : fr.dropLast.length + 1 = fr.length := by
      rw [← hsplit]
      simp
    omega
  have hdl_sum : fr.dropLast.length ≤
      (fr.dropLast.map (fun l => (wordTuples tok l).length)).sum := by
    have h4 := List.length_le_sum_of_one_le
      (fr.dropLast.map (fun l => (wordTuples tok l).length)) ?_
    · rwa [List.length_map] at h4
    · intro i hi
      obtain ⟨x, hx, rfl⟩ := List.mem_map.mp hi
      exact hlens x (List.dropLast_subset fr hx)
  have hsum_split : (fr.map (fun l => (wordTuples tok l).length)).sum =
      (fr.dropLast.map (fun l => (wordTuples tok l).length)).sum +
        (wordTuples tok lGood).length := by
    conv_lhs => rw [← hsplit]
    rw [List.map_append, List.sum_append]
    simp
  have hoff_len : (mungeWords tok text).2.length = (wordTuples tok lGood).length := by
    rw [hlast, List.length_map]
  rw [hoff_len, hfst]
  split
  · rw [List.length_append, hbase, hsum, hsum_split]
    simp only [List.length_cons, List.length_nil]
    omega
  · rw [hbase, hsum, hsum_split]
    omega

theorem offsets_last_line_witness :
    (((pyLines "hi\nyo").filter (goodLine tok0)).getLast? = some "yo") ∧
    (mungeWords tok0 "hi\nyo").2 = (wordTuples tok0 "yo").map (fun w => w.2) ∧
    (mungeWords tok0 "hi\nyo").2.length < (mungeWords tok0 "hi\nyo").1.length := by
  have h : ((pyLines "hi\nyo").filter (goodLine tok0)).getLast? = some "yo" := by decide
  obtain ⟨h1, h2, _⟩ := offsets_last_line tok0 "hi\nyo" "yo" h
  exact ⟨h, h1, h2 (by decide)⟩

/-! ## Claim C7: codec on token-free input -/

theorem tableOk_nil : TableOk ⟨[""], []⟩ := by
  intro s j hj
  simp [hashFind] at hj

/-- If the word list comes out empty then no line contributed, so the
    offset list is the untouched initial empty list. -/
theorem mungeWords_snd_nil (tok : Tok) (text : String)
    (h : (mungeWords tok text).1 = []) : (mungeWords tok text).2 = [] := by
  have hfst : ((pyLines text).foldl (mungeWordsStep tok) ([], [])).1 = [] := by
    by_cases he : pyEndsWith text "\n" = true
    · exfalso
      have : (mungeWords tok text).1 =
          ((pyLines text).foldl (mungeWordsStep tok) ([], [])).1 ++ ["\n"] := by
        simp only [mungeWords, he, if_true]
      rw [this] at h
      simp at h
    · have : (mungeWords tok text).1 =
          ((pyLines text).foldl (mungeWordsStep tok) ([], [])).1 := by
        simp only [mungeWords, he]
        simp
      rwa [this] at h
  rw [foldl_munge_fst] at hfst
  simp only [List.nil_append] at hfst
  have hfil : (pyLines text).filter (goodLine tok) = [] := by
    cases hc : (pyLines text).filter (goodLine tok) with
    | nil => rfl
    | cons l t =>
      exfalso
      rw [hc, List.map_cons, List.flatten_cons, List.append_eq_nil] at hfst
      have hg : goodLine tok l = true := (List.mem_filter.mp (hc ▸ List.mem_cons_self l t)).2
      simp only [goodLine, Bool.and_eq_true, Bool.not_eq_true'] at hg
      have h3 := hg.2
      cases hwt : wordTuples tok l with
      | nil => rw [hwt] at h3; simp at h3
      | cons a t2 =>
        rw [hwt] at hfst
        simp at hfst
  have hsnd := foldl_munge_snd tok (pyLines text) ([], [])
  rw [hfil] at hsnd
  simp only [List.map_nil, List.getLastD] at hsnd
  exact hsnd

/-- Encoding the single boundary chunk always yields exactly one symbol,
    which decodes to the bare boundary marker. -/
theorem encodeChunks_space (maxL : Nat) (tb : Table) (htb : TableOk tb) :
    ∃ j, (encodeChunks maxL [[' ']] tb).1 = [j] ∧
      ((encodeChunks maxL [[' ']] tb).2.lineArray.getD j "") = " " := by
  cases hh : hashFind tb.lineHash (String.mk [' ']) with
  | some j =>
    refine ⟨j, ?_, ?_⟩
    · simp [encodeChunks, hh]
    · simp only [encodeChunks, hh]
      exact (htb _ _ hh).2
  | none =>
    by_cases hb : tb.lineArray.length = maxL
    · refine ⟨tb.lineArray.length, ?_, ?_⟩
      · simp [encodeChunks, hh, hb]
      · have e : (encodeChunks maxL [[' ']] tb).2.lineArray =
            tb.lineArray ++ [String.mk ([' '] ++ List.flatten ([] : List (List Char)))] := by
          simp [encodeChunks, hh, hb, pushLine]
        rw [e, getD_snoc_self]
        rfl
    · refine ⟨tb.lineArray.length, ?_, ?_⟩
      · simp [encodeChunks, hh, hb, pushLine]
      · have e : (encodeChunks maxL [[' ']] tb).2.lineArray =
            tb.lineArray ++ [String.mk [' ']] := by
          simp [encodeChunks, hh, hb, pushLine]
        rw [e, getD_snoc_self]

/-- Claim C7 (amended): on an input whose token set is empty, the codec
    never errors and returns an EMPTY offset list together with a symbol
    string of exactly ONE symbol (not an empty symbol string): the munged
    text of a token-free input is the single boundary marker, which encodes
    to one chunk. -/
theorem empty_codec_input (tok : Tok) (maxL : Nat) (text : String) (tb : Table)
    (hw : (mungeWords tok text).1 = []) (htb : TableOk tb) :
    ∃ j, (diff_linesToCharsMunge tok maxL text tb).1.1 = [j] ∧
      (diff_linesToCharsMunge tok maxL text tb).1.2 = [] ∧
      ((diff_linesToCharsMunge tok maxL text tb).2.lineArray.getD j "") = " " := by
  have hmd : mungedData tok text = [' '] := by
    simp [mungedData, hw, List.intercalate]
  have hch : chunksOf (mungedData tok text) = [[' ']] := by
    rw [hmd]
    rfl
  obtain ⟨j, hj1, hj2⟩ := encodeChunks_space maxL tb htb
  refine ⟨j, ?_, ?_, ?_⟩
  · simp only [diff_linesToCharsMunge, hch]
    exact hj1
  · simp only [diff_linesToCharsMunge]
    exact mungeWords_snd_nil tok text hw
  · simp only [diff_linesToCharsMunge, hch]
    exact hj2

theorem empty_codec_input_witness :
    ((mungeWords tok0 "").1 = []) ∧
    (∃ j, (diff_linesToCharsMunge tok0 666666 "" ⟨[""], []⟩).1.1 = [j] ∧
      (diff_linesToCharsMunge tok0 666666 "" ⟨[""], []⟩).1.2 = [] ∧
      ((diff_linesToCharsMunge tok0 666666 "" ⟨[""], []⟩).2.lineArray.getD j "") = " ") :=
  ⟨by decide, empty_codec_input tok0 666666 "" ⟨[""], []⟩ (by decide) tableOk_nil⟩

/-- Claim C7 as stated is false: encoding the empty text does NOT return an
    empty symbol string; it returns the one-symbol string `[1]` (the symbol
    of the bare boundary chunk).  The offset list is indeed empty. -/
theorem empty_codec_counterexample :
    (diff_wordsToChars tok0 "" "").1 = [1] ∧ (([1] : List Nat) ≠ []) ∧
    (diff_wordsToChars tok0 "" "").2.2.2.1 = [] := by
  decide

/-! ## Claim C10: the constructor mutates file1 on disk -/

/-- Claim C10: constructing `AlignedText` appends a newline to `file1` on
    disk before any alignment or diffing (the edit count and rendered
    outputs are computed from the post-append state), and this happens in
    EVERY `create_html_file` run whose input files exist — including runs
    that find zero edits and therefore write no output files — while
    `file2` is never modified. -/
theorem file1_newline_append (numEdits : FileSystem → Nat)
    (htmlText jsonText : FileSystem → String) (in_app : Bool) (fs : FileSystem)
    (file1 file2 htmlOut jsonOut : String)
    (h1 : (fs file1).isSome = true) (h2 : (fs file2).isSome = true)
    (h3 : file1 ≠ htmlOut) (h4 : file1 ≠ jsonOut) (h5 : file2 ≠ file1)
    (h6 : file2 ≠ htmlOut) (h7 : file2 ≠ jsonOut) :
    createHtmlFileFS numEdits htmlText jsonText in_app fs file1 file2 htmlOut jsonOut
        file1 = some (((fs file1).getD "") ++ "\n") ∧
    createHtmlFileFS numEdits htmlText jsonText in_app fs file1 file2 htmlOut jsonOut
        file2 = fs file2 ∧
    alignedTextInitFS fs file1 file1 = some (((fs file1).getD "") ++ "\n") := by
  unfold createHtmlFileFS alignedTextInitFS appendToFile writeToFile
  simp only [h1, h2, Bool.and_self, if_true]
  refine ⟨?_, ?_, by simp⟩
  · split
    · simp
    · split
      · simp [h3]
      · simp [h3, h4]
  · split
    · simp [h5]
    · split
      · simp [h5, h6]
      · simp [h5, h6, h7]

theorem file1_newline_append_witness :
    createHtmlFileFS (fun _ => 0) (fun _ => "") (fun _ => "") false
        (fun p => if p = "a.txt" then some "x" else if p = "b.txt" then some "y" else none)
        "a.txt" "b.txt" "out.html" "out.json" "a.txt" = some ("x" ++ "\n") ∧
    createHtmlFileFS (fun _ => 0) (fun _ => "") (fun _ => "") false
        (fun p => if p = "a.txt" then some "x" else if p = "b.txt" then some "y" else none)
        "a.txt" "b.txt" "out.html" "out.json" "b.txt" = some "y" := by
  have h := file1_newline_append (fun _ => 0) (fun _ => "") (fun _ => "") false
    (fun p => if p = "a.txt" then some "x" else if p = "b.txt" then some "y" else none)
    "a.txt" "b.txt" "out.html" "out.json" (by decide) (by decide) (by decide) (by decide)
    (by decide) (by decide) (by decide)
  exact ⟨h.1, h.2.1⟩

/-! ## Codec soundness: claims C1 and C8 -/

theorem chunksOfAux_flatten : ∀ (cs cur : List Char),
    (chunksOfAux cur cs).flatten = cur.reverse ++ cs := by
  intro cs
  induction cs with
  | nil =>
    intro cur
    by_cases h : cur = []
    · simp [chunksOfAux, h]
    · simp [chunksOfAux, h]
  | cons c rest ih =>
    intro cur
    by_cases h : c = ' '
    · subst h
      rw [show chunksOfAux cur (' ' :: rest) = (cur.reverse ++ [' ']) :: chunksOfAux [] rest
        from by simp [chunksOfAux]]
      rw [List.flatten_cons, ih []]
      simp
    · simp only [chunksOfAux, if_neg h, ih (c :: cur)]
      simp

theorem chunksOf_flatten (cs : List Char) : (chunksOf cs).flatten = cs := by
  simpa using chunksOfAux_flatten cs []

theorem hashFind_cons (a : String) (k : Nat) (h : List (String × Nat)) (s : String) :
    hashFind ((a, k) :: h) s = if a = s then some k else hashFind h s := by
  by_cases hs : a = s
  · subst hs
    simp [hashFind, List.find?_cons]
  · have hb : (a == s) = false := by
      rw [beq_eq_false_iff_ne]
      exact hs
    simp [hashFind, List.find?_cons, hb, hs]

theorem tableOk_push (tb : Table) (line : String) (h : TableOk tb) :
    TableOk (pushLine tb line) := by
  intro s j hj
  simp only [pushLine] at hj ⊢
  rw [hashFind_cons] at hj
  by_cases hls : line = s
  · rw [if_pos hls] at hj
    injection hj with hj
    subst hj
    constructor
    · simp
    · rw [getD_snoc_self]
      exact hls
  · rw [if_neg hls] at hj
    obtain ⟨hj1, hj2⟩ := h s j hj
    constructor
    · simp only [List.length_append, List.length_cons, List.length_nil]
      omega
    · rw [List.getD_append _ _ _ _ hj1]
      exact hj2

/-- Soundness of the chunk encoder: the table invariant is preserved, the
    array only grows, and the emitted symbols decode, under any extension of
    the final array, back to the concatenation of the encoded chunks. -/
theorem encodeChunks_sound (maxL : Nat) :
    ∀ (l : List (List Char)) (tb : Table), TableOk tb →
      TableOk (encodeChunks maxL l tb).2 ∧
      tb.lineArray <+: (encodeChunks maxL l tb).2.lineArray ∧
      (∀ arr : List String, (encodeChunks maxL l tb).2.lineArray <+: arr →
        ((encodeChunks maxL l tb).1.map (fun j => (arr.getD j "").data)).flatten =
          l.flatten) := by
  intro l
  induction l with
  | nil =>
    intro tb htb
    refine ⟨htb, List.prefix_refl _, ?_⟩
    intro arr _
    simp [encodeChunks]
  | cons ch rest ih =>
    intro tb htb
    cases hh : hashFind tb.lineHash (String.mk ch) with
    | some j =>
      obtain ⟨hj1, hj2⟩ := htb _ _ hh
      obtain ⟨ihok, ihp, ihd⟩ := ih tb htb
      have e : encodeChunks maxL (ch :: rest) tb =
          ((j :: (encodeChunks maxL rest tb).1), (encodeChunks maxL rest tb).2) := by
        simp [encodeChunks, hh]
      rw [e]
      refine ⟨ihok, ihp, ?_⟩
      intro arr harr
      simp only [List.map_cons, List.flatten_cons]
      rw [ihd arr harr]
      have harr2 : tb.lineArray <+: arr := ihp.trans harr
      rw [getD_prefix_stable harr2 j "" hj1, hj2]
    | none =>
      by_cases hb : tb.lineArray.length = maxL
      · have e : encodeChunks maxL (ch :: rest) tb =
            ([tb.lineArray.length], pushLine tb (String.mk (ch ++ rest.flatten))) := by
          simp [encodeChunks, hh, hb]
        rw [e]
        refine ⟨tableOk_push tb _ htb, ?_, ?_⟩
        · simp only [pushLine]
          exact List.prefix_append _ _
        · intro arr harr
          simp only [List.map_cons, List.map_nil, List.flatten_cons, List.flatten_nil,
            List.append_nil]
          have hlt : tb.lineArray.length <
              (pushLine tb (String.mk (ch ++ rest.flatten))).lineArray.length := by
            simp [pushLine]
          rw [getD_prefix_stable harr _ "" hlt]
          simp only [pushLine]
          rw [getD_snoc_self]
      · obtain ⟨ihok, ihp, ihd⟩ := ih (pushLine tb (String.mk ch)) (tableOk_push tb _ htb)
        have e : encodeChunks maxL (ch :: rest) tb =
            (tb.lineArray.length ::
               (encodeChunks maxL rest (pushLine tb (String.mk ch))).1,
             (encodeChunks maxL rest (pushLine tb (String.mk ch))).2) := by
          simp [encodeChunks, hh, hb]
        rw [e]
        have hpfx : tb.lineArray <+: (pushLine tb (String.mk ch)).lineArray := by
          simp only [pushLine]
          exact List.prefix_append _ _
        refine ⟨ihok, hpfx.trans ihp, ?_⟩
        intro arr harr
        simp only [List.map_cons, List.flatten_cons]
        rw [ihd arr harr]
        have harr2 : (pushLine tb (String.mk ch)).lineArray <+: arr := ihp.trans harr
        have hlt : tb.lineArray.length < (pushLine tb (String.mk ch)).lineArray.length := by
          simp [pushLine]
        rw [getD_prefix_stable harr2 _ "" hlt]
        simp only [pushLine]
        rw [getD_snoc_self]

/-- Soundness lifted to `diff_linesToCharsMunge`: the emitted symbol string
    decodes, under the final array of the invocation or any extension, to
    the munged (boundary-normalized) text. -/
theorem dlcm_sound (tok : Tok) (maxL : Nat) (t : String) (tb : Table) (htb : TableOk tb) :
    TableOk (diff_linesToCharsMunge tok maxL t tb).2 ∧
    tb.lineArray <+: (diff_linesToCharsMunge tok maxL t tb).2.lineArray ∧
    (∀ arr : List String, (diff_linesToCharsMunge tok maxL t tb).2.lineArray <+: arr →
      (((diff_linesToCharsMunge tok maxL t tb).1.1).map
        (fun j => (arr.getD j "").data)).flatten = mungedData tok t) := by
  obtain ⟨a, b, c⟩ := encodeChunks_sound maxL (chunksOf (mungedData tok t)) tb htb
  refine ⟨a, b, ?_⟩
  intro arr harr
  rw [show (diff_linesToCharsMunge tok maxL t tb).1.1 =
    (encodeChunks maxL (chunksOf (mungedData tok t)) tb).1 from rfl]
  rw [c arr harr, chunksOf_flatten]

/-- The two symbol strings produced by `diff_wordsToChars` decode, under the
    shared final `lineArray`, to the two boundary-normalized texts. -/
theorem decode_sides (tok : Tok) (t1 t2 : String) :
    charsToLines (diff_wordsToChars tok t1 t2).2.2.1 (diff_wordsToChars tok t1 t2).1 =
      normalizedText tok t1 ∧
    charsToLines (diff_wordsToChars tok t1 t2).2.2.1 (diff_wordsToChars tok t1 t2).2.1 =
      normalizedText tok t2 := by
  obtain ⟨h1ok, h1p, h1d⟩ := dlcm_sound tok 666666 t1 ⟨[""], []⟩ tableOk_nil
  obtain ⟨h2ok, h2p, h2d⟩ := dlcm_sound tok 1114111 t2
    (diff_linesToCharsMunge tok 666666 t1 ⟨[""], []⟩).2 h1ok
  constructor
  · have h := h1d (diff_linesToCharsMunge tok 1114111 t2
      (diff_linesToCharsMunge tok 666666 t1 ⟨[""], []⟩).2).2.lineArray h2p
    exact congrArg String.mk h
  · have h := h2d (diff_linesToCharsMunge tok 1114111 t2
      (diff_linesToCharsMunge tok 666666 t1 ⟨[""], []⟩).2).2.lineArray (List.prefix_refl _)
    exact congrArg String.mk h

/-- Filtering and decoding commute: the decoded concatenation of the kept
    runs equals the decoding of the concatenated kept symbol runs. -/
theorem textSide_decode (arr : List String) (k : Int) :
    ∀ (cd : List (Int × List Nat)),
      textSide k (cd.map (fun r => (r.1, charsToLines arr r.2))) =
        charsToLines arr (symSide k cd) := by
  have key : ∀ (cd : List (Int × List Nat)),
      (((cd.map (fun r => ((r.1 : Int), charsToLines arr r.2))).filter
          (fun r => r.1 == 0 || r.1 == k)).map (fun r => r.2.data)).flatten =
        ((((cd.filter (fun r => r.1 == 0 || r.1 == k)).map (fun r => r.2)).flatten).map
          (fun j => (arr.getD j "").data)).flatten := by
    intro cd
    induction cd with
    | nil => rfl
    | cons r rest ih =>
      obtain ⟨op, syms⟩ := r
      by_cases hp : ((op == (0 : Int)) || (op == k)) = true
      · simp only [List.map_cons, List.filter_cons, hp, if_true, List.flatten_cons,
          List.map_append, List.flatten_append]
        rw [ih]
        rfl
      · simp only [List.map_cons, List.filter_cons, hp]
        rw [if_neg (by simp [hp]), if_neg (by simp [hp])]
        exact ih
  intro cd
  exact congrArg String.mk (key cd)

/-- Claim C1: for every text pair and every symbol diff satisfying the
    round-trip contract of the external diff algorithm, concatenating the
    decoded texts of the equal and deleteFromText1 runs of `diff_wordMode`
    reproduces text1 up to boundary-marker (space) normalization (that is,
    it equals `normalizedText`, the munged space-join of the words of
    text1), and the equal and insertFromText2 runs likewise reproduce the
    normalized text2. -/
theorem diff_wordMode_roundtrip (tok : Tok)
    (d : List Nat → List Nat → List (Int × List Nat)) (hd : DiffRoundTrip d)
    (t1 t2 : String) :
    textSide (-1) (diff_wordMode d tok t1 t2).1 = normalizedText tok t1 ∧
    textSide 1 (diff_wordMode d tok t1 t2).1 = normalizedText tok t2 := by
  obtain ⟨e1, e2⟩ := decode_sides tok t1 t2
  obtain ⟨r1, r2⟩ := hd (diff_wordsToChars tok t1 t2).1 (diff_wordsToChars tok t1 t2).2.1
  constructor
  · have h := textSide_decode (diff_wordsToChars tok t1 t2).2.2.1 (-1)
      (d (diff_wordsToChars tok t1 t2).1 (diff_wordsToChars tok t1 t2).2.1)
    rw [r1] at h
    exact h.trans e1
  · have h := textSide_decode (diff_wordsToChars tok t1 t2).2.2.1 1
      (d (diff_wordsToChars tok t1 t2).1 (diff_wordsToChars tok t1 t2).2.1)
    rw [r2] at h
    exact h.trans e2

/-- The trivial delete-all/insert-all diff satisfies the round-trip
    contract. -/
theorem d0_roundTrip : DiffRoundTrip d0 := by
  intro a b
  constructor
  · simp [symSide, d0]
  · simp [symSide, d0]

theorem diff_wordMode_roundtrip_witness :
    DiffRoundTrip d0 ∧
    (textSide (-1) (diff_wordMode d0 tok0 "hi" "yo").1 = normalizedText tok0 "hi" ∧
     textSide 1 (diff_wordMode d0 tok0 "hi" "yo").1 = normalizedText tok0 "yo") :=
  ⟨d0_roundTrip, diff_wordMode_roundtrip tok0 d0 d0_roundTrip "hi" "yo"⟩

theorem subIndex_singleton_none (k : Nat) : ∀ (l : List Nat), k ∉ l →
    subIndex [k] l = none := by
  intro l
  induction l with
  | nil =>
    intro _
    simp [subIndex]
  | cons c rest ih =>
    intro h
    simp only [List.mem_cons, not_or] at h
    have h1 : ([k].isPrefixOf (c :: rest)) = false := by
      simp only [List.isPrefixOf, Bool.and_eq_false_iff]
      left
      rw [beq_eq_false_iff_ne]
      exact h.1
    simp [subIndex, h1, ih h.2]

/-- On a non-empty first input and a fresh single-symbol second input, the
    modelled external diff takes its single-character-shorttext path and
    returns exactly one delete-all run and one insert run. -/
theorem dmpDiffModel_del_ins (a : List Nat) (k : Nat) (h1 : a ≠ []) (h2 : k ∉ a) :
    dmpDiffModel a [k] = [(-1, a), (1, [k])] := by
  have hne : a ≠ [k] := by
    intro hc
    apply h2
    rw [hc]
    exact List.mem_singleton_self k
  have hpre : commonPrefixLen a [k] = 0 := by
    cases a with
    | nil => simp [commonPrefixLen]
    | cons j rest =>
      have hjk : j ≠ k := fun hc => h2 (by rw [← hc]; exact List.mem_cons_self _ _)
      simp [commonPrefixLen, hjk]
  have hsuf : commonSuffixLen a [k] = 0 := by
    unfold commonSuffixLen
    cases hrev : a.reverse with
    | nil =>
      exfalso
      exact h1 (by simpa using hrev)
    | cons x xs =>
      have hx : x ∈ a := by
        rw [← List.mem_reverse, hrev]
        exact List.mem_cons_self _ _
      have hxk : x ≠ k := fun hc => h2 (hc ▸ hx)
      simp [hrev, commonPrefixLen, hxk]
  have hcompute : dmpDiffCompute a [k] = [(-1, a), (1, [k])] := by
    simp only [dmpDiffCompute, if_neg h1,
      if_neg (by simp : ¬([k] : List Nat) = [])]
    by_cases hl : a.length > ([k] : List Nat).length
    · simp only [hl, if_true, gt_iff_lt]
      rw [subIndex_singleton_none k a h2]
    · simp only [gt_iff_lt]
      rw [if_neg (by simpa using hl), if_neg (by simpa using hl)]
      have hlen1 : a.length = 1 := by
        have hge : 1 ≤ a.length := by
          cases a with
          | nil => exact absurd rfl h1
          | cons x t => simp
        simp only [List.length_cons, List.length_nil, gt_iff_lt, not_lt] at hl
        omega
      obtain ⟨j, hj⟩ : ∃ j, a = [j] := by
        cases a with
        | nil => exact absurd rfl h1
        | cons x t =>
          cases t with
          | nil => exact ⟨x, rfl⟩
          | cons y t2 => simp at hlen1
      subst hj
      have hjk : j ≠ k := fun hc => h2 (by rw [hc]; exact List.mem_singleton_self k)
      have hsub : subIndex [j] [k] = none := by
        apply subIndex_singleton_none
        simp only [List.mem_singleton]
        exact hjk
      rw [hsub]
  simp only [dmpDiffModel, if_neg hne, hpre, List.drop_zero, hsuf, Nat.sub_zero,
    List.take_length, ne_eq, not_true_eq_false, if_neg (by omega : ¬(0 : Nat) ≠ 0)]
  rw [hcompute]
  simp

theorem mungeWords_empty (tok : Tok) : mungeWords tok "" = ([], []) := rfl

/-- Mirror of `dmpDiffModel_del_ins`: on a single-symbol first input whose
    symbol does not occur in the non-empty second input, the modelled
    external diff takes its single-character-shorttext path and returns one
    delete run of the singleton and one insert-all run. -/
theorem dmpDiffModel_ins_all (k : Nat) (b : List Nat) (h1 : b ≠ []) (h2 : k ∉ b) :
    dmpDiffModel [k] b = [(-1, [k]), (1, b)] := by
  have hne : ([k] : List Nat) ≠ b := by
    intro hc
    apply h2
    rw [← hc]
    exact List.mem_singleton_self k
  have hpre : commonPrefixLen [k] b = 0 := by
    cases b with
    | nil => exact absurd rfl h1
    | cons c rest =>
      have hkc : k ≠ c := fun hc => h2 (hc ▸ List.mem_cons_self _ _)
      simp [commonPrefixLen, hkc]
  have hsuf : commonSuffixLen [k] b = 0 := by
    unfold commonSuffixLen
    cases hrev : b.reverse with
    | nil =>
      exfalso
      exact h1 (by simpa using hrev)
    | cons x xs =>
      have hx : x ∈ b := by
        rw [← List.mem_reverse, hrev]
        exact List.mem_cons_self _ _
      have hkx : k ≠ x := fun hc => h2 (hc ▸ hx)
      simp [hrev, commonPrefixLen, hkx]
  have hcompute : dmpDiffCompute [k] b = [(-1, [k]), (1, b)] := by
    simp only [dmpDiffCompute, if_neg (by simp : ¬([k] : List Nat) = []), if_neg h1]
    have hl : ¬(([k] : List Nat).length > b.length) := by
      simp only [List.length_singleton, gt_iff_lt, not_lt]
      cases b with
      | nil => exact absurd rfl h1
      | cons c rest => simp
    simp only [gt_iff_lt]
    rw [if_neg (by simpa using hl), if_neg (by simpa using hl)]
    rw [subIndex_singleton_none k b h2]
  simp only [dmpDiffModel, if_neg hne, hpre, List.drop_zero, hsuf, Nat.sub_zero,
    List.take_length, ne_eq, not_true_eq_false, if_neg (by omega : ¬(0 : Nat) ≠ 0)]
  rw [hcompute]
  simp

/-- Encoding the empty text FIRST, through the fresh table, concretely:
    one symbol (value 1) for the bare boundary chunk, empty offset list,
    and the table holding the reserved entry plus the boundary chunk. -/
theorem dlcm_empty_first (tok : Tok) :
    diff_linesToCharsMunge tok 666666 "" ⟨[""], []⟩ =
      (([1], []), ⟨["", " "], [(" ", 1)]⟩) := rfl

/-- Claim C8 (amended): diffing a non-empty text against the empty text
    does NOT produce a single run, in either orientation.  The empty side
    encodes to exactly one symbol (the bare boundary chunk), so — provided
    that symbol does not occur on the non-empty side — with the empty text
    as text2 the diff is one deleteFromText1 run spanning all tokens of the
    non-empty text (decoding to its boundary-normalized form) plus one
    insertFromText2 run decoding to the single boundary marker; and
    symmetrically, with the empty text as text1, one deleteFromText1 run of
    the boundary chunk plus one insertFromText2 run spanning all tokens of
    the non-empty text. -/
theorem empty_side_diff (tok : Tok) (t : String) :
    ((diff_wordsToChars tok t "").1 ≠ [] →
     (∀ k ∈ (diff_wordsToChars tok t "").2.1, k ∉ (diff_wordsToChars tok t "").1) →
     ∃ k, (diff_wordsToChars tok t "").2.1 = [k] ∧
       (diff_wordMode dmpDiffModel tok t "").2.1 =
         [(-1, (diff_wordsToChars tok t "").1), (1, [k])] ∧
       (diff_wordMode dmpDiffModel tok t "").1 =
         [(-1, normalizedText tok t), (1, " ")]) ∧
    ((diff_wordsToChars tok "" t).2.1 ≠ [] →
     (∀ k ∈ (diff_wordsToChars tok "" t).1, k ∉ (diff_wordsToChars tok "" t).2.1) →
     ∃ k, (diff_wordsToChars tok "" t).1 = [k] ∧
       (diff_wordMode dmpDiffModel tok "" t).2.1 =
         [(-1, [k]), (1, (diff_wordsToChars tok "" t).2.1)] ∧
       (diff_wordMode dmpDiffModel tok "" t).1 =
         [(-1, " "), (1, normalizedText tok t)]) := by
  constructor
  · intro h1 h2
    obtain ⟨j, hj1, hj2, hj3⟩ := empty_codec_input tok 1114111 ""
      (diff_linesToCharsMunge tok 666666 t ⟨[""], []⟩).2
      (by rw [mungeWords_empty])
      (dlcm_sound tok 666666 t ⟨[""], []⟩ tableOk_nil).1
    have hc2 : (diff_wordsToChars tok t "").2.1 = [j] := hj1
    have hk : j ∉ (diff_wordsToChars tok t "").1 :=
      h2 j (by rw [hc2]; exact List.mem_singleton_self j)
    refine ⟨j, hc2, ?_, ?_⟩
    · have e : (diff_wordMode dmpDiffModel tok t "").2.1 =
          dmpDiffModel (diff_wordsToChars tok t "").1 (diff_wordsToChars tok t "").2.1 := rfl
      rw [e, hc2]
      exact dmpDiffModel_del_ins _ j h1 hk
    · have e : (diff_wordMode dmpDiffModel tok t "").1 =
          (dmpDiffModel (diff_wordsToChars tok t "").1
              (diff_wordsToChars tok t "").2.1).map
            (fun r => (r.1, charsToLines (diff_wordsToChars tok t "").2.2.1 r.2)) := rfl
      rw [e, hc2, dmpDiffModel_del_ins _ j h1 hk]
      simp only [List.map_cons, List.map_nil]
      rw [(decode_sides tok t "").1]
      have hdec : charsToLines (diff_wordsToChars tok t "").2.2.1 [j] = " " := by
        unfold charsToLines
        simp only [List.map_cons, List.map_nil, List.flatten_cons, List.flatten_nil,
          List.append_nil]
        rw [show (diff_wordsToChars tok t "").2.2.1 =
          (diff_linesToCharsMunge tok 1114111 ""
            (diff_linesToCharsMunge tok 666666 t ⟨[""], []⟩).2).2.lineArray from rfl]
        rw [hj3]
      rw [hdec]
  · intro h1 h2
    have e1 : (diff_wordsToChars tok "" t).1 = [1] :=
      congrArg (fun r => r.1.1) (dlcm_empty_first tok)
    have etb : (diff_linesToCharsMunge tok 666666 "" ⟨[""], []⟩).2.lineArray = ["", " "] :=
      congrArg (fun r => r.2.lineArray) (dlcm_empty_first tok)
    have htb1 : TableOk (diff_linesToCharsMunge tok 666666 "" ⟨[""], []⟩).2 :=
      (dlcm_sound tok 666666 "" ⟨[""], []⟩ tableOk_nil).1
    obtain ⟨h2ok, h2p, h2d⟩ := dlcm_sound tok 1114111 t
      (diff_linesToCharsMunge tok 666666 "" ⟨[""], []⟩).2 htb1
    have hk1 : (1 : Nat) ∉ (diff_wordsToChars tok "" t).2.1 :=
      h2 1 (by rw [e1]; exact List.mem_singleton_self 1)
    refine ⟨1, e1, ?_, ?_⟩
    · have e : (diff_wordMode dmpDiffModel tok "" t).2.1 =
          dmpDiffModel (diff_wordsToChars tok "" t).1 (diff_wordsToChars tok "" t).2.1 := rfl
      rw [e, e1]
      exact dmpDiffModel_ins_all 1 _ h1 hk1
    · have e : (diff_wordMode dmpDiffModel tok "" t).1 =
          (dmpDiffModel (diff_wordsToChars tok "" t).1
              (diff_wordsToChars tok "" t).2.1).map
            (fun r => (r.1, charsToLines (diff_wordsToChars tok "" t).2.2.1 r.2)) := rfl
      rw [e, e1, dmpDiffModel_ins_all 1 _ h1 hk1]
      simp only [List.map_cons, List.map_nil]
      rw [(decode_sides tok "" t).2]
      have hdec : charsToLines (diff_wordsToChars tok "" t).2.2.1 [1] = " " := by
        unfold charsToLines
        simp only [List.map_cons, List.map_nil, List.flatten_cons, List.flatten_nil,
          List.append_nil]
        rw [show (diff_wordsToChars tok "" t).2.2.1 =
          (diff_linesToCharsMunge tok 1114111 t
            (diff_linesToCharsMunge tok 666666 "" ⟨[""], []⟩).2).2.lineArray from rfl]
        have hlt : 1 < (diff_linesToCharsMunge tok 666666 "" ⟨[""], []⟩).2.lineArray.length := by
          rw [etb]
          simp
        rw [getD_prefix_stable h2p 1 "" hlt, etb]
        rfl
      rw [hdec]

theorem empty_side_diff_witness :
    ((diff_wordsToChars tok0 "hi" "").1 ≠ []) ∧
    (∀ k ∈ (diff_wordsToChars tok0 "hi" "").2.1, k ∉ (diff_wordsToChars tok0 "hi" "").1) ∧
    (∃ k, (diff_wordsToChars tok0 "hi" "").2.1 = [k] ∧
      (diff_wordMode dmpDiffModel tok0 "hi" "").2.1 =
        [(-1, (diff_wordsToChars tok0 "hi" "").1), (1, [k])] ∧
      (diff_wordMode dmpDiffModel tok0 "hi" "").1 =
        [(-1, normalizedText tok0 "hi"), (1, " ")]) ∧
    ((diff_wordsToChars tok0 "" "hi").2.1 ≠ []) ∧
    (∀ k ∈ (diff_wordsToChars tok0 "" "hi").1, k ∉ (diff_wordsToChars tok0 "" "hi").2.1) ∧
    (∃ k, (diff_wordsToChars tok0 "" "hi").1 = [k] ∧
      (diff_wordMode dmpDiffModel tok0 "" "hi").2.1 =
        [(-1, [k]), (1, (diff_wordsToChars tok0 "" "hi").2.1)] ∧
      (diff_wordMode dmpDiffModel tok0 "" "hi").1 =
        [(-1, " "), (1, normalizedText tok0 "hi")]) :=
  ⟨by decide, by decide, (empty_side_diff tok0 "hi").1 (by decide) (by decide),
   by decide, by decide, (empty_side_diff tok0 "hi").2 (by decide) (by decide)⟩

/-- Claim C8 as stated is false: diffing the non-empty text against the
    empty text yields TWO runs, not one — the empty side contributes an
    insertFromText2 run holding the bare boundary chunk. -/
theorem empty_side_counterexample :
    (diff_wordMode dmpDiffModel tok0 "hi" "").2.1.length = 2 ∧ (2 : Nat) ≠ 1 ∧
    (diff_wordMode dmpDiffModel tok0 "hi" "").1 = [(-1, "hi "), (1, " ")] := by
  decide

end Revisions

